import Mathlib

/-!
Verification development for the recipe-driven modifier scheduling engine of
this repository.  The engine itself (scheduler, parser, resolver, serializer)
is not present in the checked-in sources: only its callers (training
notebooks), CI configuration and two awk rewrite scripts are.  The engine is
therefore modelled from the specification (each such definition carries a doc
comment starting with `Modelled from the spec:`), while the awk scripts and the
notebook's `compute_metrics` function are embedded directly from the source.

Positions (fractional epochs) and parameter values are modelled as rationals.
-/

namespace SparseMLVerify

/-- Modelled from the spec: the per-modifier lifecycle state machine
`Pending --(position enters interval)--> Active --(position exits interval)--> Finished`
(spec sections 3 and 4.3).  The scheduler source is absent from src/. -/
inductive Phase where
  | pending
  | active
  | finished
deriving DecidableEq, Repr

/-- Numeric rank of a phase, used to state monotonicity of transitions. -/
def phaseIdx : Phase → Nat
  | .pending => 0
  | .active => 1
  | .finished => 2

/-- Phase order: `a` is no later than `b` in the lifecycle. -/
def phaseLe (a b : Phase) : Prop := phaseIdx a ≤ phaseIdx b

instance (a b : Phase) : Decidable (phaseLe a b) := by
  unfold phaseLe; infer_instance

/-- Join of two phases in the `Pending < Active < Finished` order. -/
def maxPhase : Phase → Phase → Phase
  | .pending, x => x
  | .active, .pending => .active
  | .active, x => x
  | .finished, _ => .finished

/-- Modelled from the spec: the scheduling granularity a modifier chooses
(per-step or per-epoch callbacks, spec section 4.3/4.5); the scheduler source
is absent from src/. -/
inductive Gran where
  | step
  | epoch
deriving DecidableEq, Repr

/-- Modelled from the spec: lifecycle callbacks a modifier receives
(spec section 4.3).  An `update` carries the engine-supplied normalized
progress (`none` when the interval end is open); the scheduler source is
absent from src/. -/
inductive Event where
  | init
  | update (progress : Option ℚ)
  | finalize
deriving DecidableEq, Repr

/-- Modelled from the spec: a resolved ModifierSpec (spec section 3):
type tag, resolved parameter mapping, inclusive `start`, exclusive-or-open
`end` (field `stop` here, `end` being a Lean keyword), stage name, declared
target set and scheduling granularity.  The scheduler source is absent from
src/. -/
structure ModifierSpec where
  name : String
  tag : String
  stage : String
  start : ℚ
  stop : Option ℚ
  targets : List String
  params : List (String × ℚ)
  granularity : Gran
deriving DecidableEq, Repr

/-- Modelled from the spec: `start <= end` when both are given
(spec section 3 invariant). -/
def validSpec (m : ModifierSpec) : Prop := ∀ e, m.stop = some e → m.start ≤ e

instance (m : ModifierSpec) : Decidable (validSpec m) := by
  unfold validSpec
  cases m.stop <;> simp <;> infer_instance

/-- Modelled from the spec: `applies_at(position)`, true iff
`start <= position < end` (or `end` is open) (spec section 4.3). -/
def applies_at (m : ModifierSpec) (p : ℚ) : Bool :=
  decide (m.start ≤ p) &&
    (match m.stop with
     | some e => decide (p < e)
     | none => true)

/-- Modelled from the spec: the phase a modifier's interval dictates at a
given position (`position enters interval` / `position exits interval`,
spec section 4.3). -/
def phaseOf (m : ModifierSpec) (p : ℚ) : Phase :=
  if p < m.start then .pending
  else
    match m.stop with
    | some e => if e ≤ p then .finished else .active
    | none => .active

/-- Clamp a rational to the interval [0, 1]. -/
def clamp01 (q : ℚ) : ℚ := if q < 0 then 0 else if 1 < q then 1 else q

/-- Modelled from the spec: the engine-supplied normalized
`progress = (position - start) / (end - start)` clamped to [0,1] when `end`
is finite (spec section 4.3); `none` when the end is open. -/
def progressOf (m : ModifierSpec) (p : ℚ) : Option ℚ :=
  match m.stop with
  | some e => some (clamp01 ((p - m.start) / (e - m.start)))
  | none => none

/-- Modelled from the spec: linear interpolation of a parameter value over the
active interval (the notebook recipe's `LearningRateFunctionModifier` with
`lr_func: linear` goes from `init_lr` to `final_lr`; spec section 4.3 hot
parameter interpolation). -/
def linearInterp (initV finalV progress : ℚ) : ℚ :=
  initV + (finalV - initV) * progress

/-- Modelled from the spec: advancing one modifier's phase to position `p`
and the lifecycle callbacks this emits (spec section 4.5 `on_step`; the
synthetic `initialize`+`finalize` pair when an interval is skipped over,
spec section 4.3).  The scheduler source is absent from src/. -/
def advancePhase (m : ModifierSpec) (p : ℚ) (ph : Phase) : Phase × List Event :=
  match ph, phaseOf m p with
  | .pending, .pending => (.pending, [])
  | .pending, .active => (.active, [.init, .update (progressOf m p)])
  | .pending, .finished => (.finished, [.init, .finalize])
  | .active, .pending => (.active, [])
  | .active, .active => (.active, [.update (progressOf m p)])
  | .active, .finished => (.finished, [.finalize])
  | .finished, _ => (.finished, [])

/-- Modelled from the spec: a live modifier instance owned by the Scheduler:
its spec, its current phase and the log of lifecycle callbacks it has received
(spec section 3, Modifier instance). -/
structure Inst where
  spec : ModifierSpec
  phase : Phase
  log : List Event
deriving DecidableEq, Repr

/-- Modelled from the spec: scheduler state: the ordered modifier instances
plus the resolved variable snapshot (spec section 4.5). -/
structure SchedState where
  insts : List Inst
  vars : List (String × ℚ)
deriving DecidableEq, Repr

/-- Advance one instance if its granularity matches the callback kind. -/
def stepInst (g : Gran) (p : ℚ) (i : Inst) : Inst :=
  if i.spec.granularity = g then
    { spec := i.spec
      phase := (advancePhase i.spec p i.phase).1
      log := i.log ++ (advancePhase i.spec p i.phase).2 }
  else i

/-- Force-finalize a still-active instance (spec section 4.5 `finalize_all`). -/
def finInst (i : Inst) : Inst :=
  if i.phase = .active then
    { spec := i.spec, phase := .finished, log := i.log ++ [.finalize] }
  else i

/-- Modelled from the spec: the host-loop facing operations that mutate a
loaded scheduler (spec section 4.5): `on_step`, `on_epoch`, `finalize_all`. -/
inductive Op where
  | step (p : ℚ)
  | epoch (p : ℚ)
  | finAll
deriving DecidableEq, Repr

/-- Apply one instance-level transition for an operation. -/
def instOp : Op → Inst → Inst
  | .step p, i => stepInst .step p i
  | .epoch p, i => stepInst .epoch p i
  | .finAll, i => finInst i

/-- Modelled from the spec: `on_step` / `on_epoch` / `finalize_all` on the
whole scheduler state, visiting modifiers in the resolved order
(spec section 4.5). -/
def applyOp (s : SchedState) (op : Op) : SchedState :=
  { s with insts := s.insts.map (instOp op) }

/-- Run a sequence of scheduler operations. -/
def runOps (s : SchedState) (ops : List Op) : SchedState :=
  ops.foldl applyOp s

/-! ## Dependency/Conflict Resolver (spec section 4.4) -/

/-- Modelled from the spec: the error taxonomy raised at `load`
(spec section 7); `unknownModifierType` carries the offending tag and its
stage (spec section 4.2 and section 8 fold it into the `RecipeParseError`
class raised at load), `conflictingModifier` names both modifiers and the
shared target (spec section 4.4). -/
inductive LoadErr where
  | unknownModifierType (tag stageName : String)
  | conflictingModifier (nameA nameB target : String)
  | cyclicVariable (name : String)
  | undefinedVariable (name : String)
  | invalidInterval (name : String)
deriving DecidableEq, Repr

/-- First target declared by `a` that also appears in `b`'s target set. -/
def sharedTarget (a b : ModifierSpec) : Option String :=
  a.targets.find? (fun t => b.targets.contains t)

/-- Modelled from the spec: two active intervals `[start, end)` overlap
(an absent end runs until training ends, spec section 3). -/
def overlapB (a b : ModifierSpec) : Bool :=
  match a.stop, b.stop with
  | some ea, some eb => decide (max a.start b.start < min ea eb)
  | some ea, none => decide (max a.start b.start < ea)
  | none, some eb => decide (max a.start b.start < eb)
  | none, none => true

/-- Search the tail for a modifier conflicting with `m`. -/
def findConflictWith (m : ModifierSpec) : List ModifierSpec → Option (String × String × String)
  | [] => none
  | b :: rest =>
    if overlapB m b then
      match sharedTarget m b with
      | some t => some (m.name, b.name, t)
      | none => findConflictWith m rest
    else findConflictWith m rest

/-- Modelled from the spec: detect two modifiers whose intervals overlap and
whose target sets intersect (a fatal `ConflictingModifierError`,
spec section 4.4). -/
def findConflict : List ModifierSpec → Option (String × String × String)
  | [] => none
  | m :: rest =>
    match findConflictWith m rest with
    | some c => some c
    | none => findConflict rest

/-- Modelled from the spec: `end_B <= start_A` — `b`'s interval precedes
`a`'s (spec section 4.4). -/
def precedes (b a : ModifierSpec) : Bool :=
  match b.stop with
  | some e => decide (e ≤ a.start)
  | none => false

/-- Modelled from the spec: dependency edge `a → b` when `b`'s target set
intersects `a`'s and `b`'s interval does not precede `a`'s
(spec section 4.4). -/
def hasEdge (a b : ModifierSpec) : Bool :=
  (sharedTarget a b).isSome && !(precedes b a)

/-- A modifier is ready when no other remaining modifier has an edge into
it. -/
def ready (rem : List ModifierSpec) (m : ModifierSpec) : Bool :=
  rem.all (fun r => decide (r = m) || !(hasEdge r m))

/-- Modelled from the spec: topological sort of the modifier list over the
dependency edges, ties broken by recipe declaration order (spec section 4.4).
Kahn-style selection with fuel; when no modifier is ready (a cycle, which the
conflict check rules out for loadable recipes) the remaining declaration
order is kept. -/
def topo : Nat → List ModifierSpec → List ModifierSpec
  | 0, rem => rem
  | fuel + 1, rem =>
    match rem.find? (ready rem) with
    | none => rem
    | some m => m :: topo fuel (rem.erase m)

/-- Modelled from the spec: whether a modifier's interval lies entirely before
a resume position (spec section 4.5 fast-forward). -/
def entirelyBefore (m : ModifierSpec) (p : ℚ) : Bool :=
  match m.stop with
  | some e => decide (e ≤ p)
  | none => false

/-- Phase assigned at `load(recipe, start_position)`: modifiers whose interval
lies entirely before the start position are fast-forwarded to `Finished`,
all others start `Pending` (spec section 4.5). -/
def ffPhase (m : ModifierSpec) (p : ℚ) : Phase :=
  if entirelyBefore m p then .finished else .pending

/-- Callback log produced at `load`: the synthetic `initialize`+`finalize`
pair (without `update`) for fast-forwarded modifiers (spec sections 4.3
and 4.5). -/
def ffLog (m : ModifierSpec) (p : ℚ) : List Event :=
  if entirelyBefore m p then [.init, .finalize] else []

/-- Modelled from the spec: `load(recipe, start_position)` on resolved
modifier specs: run the Dependency Resolver (conflict detection then
topological ordering) and build the modifier instances, fast-forwarding
modifiers whose interval lies entirely before the start position
(spec section 4.5).  The scheduler source is absent from src/. -/
def loadMods (vars : List (String × ℚ)) (mods : List ModifierSpec) (p : ℚ) :
    Except LoadErr SchedState :=
  match findConflict mods with
  | some (a, b, t) => .error (.conflictingModifier a b t)
  | none =>
    .ok { insts := (topo mods.length mods).map
            (fun m => { spec := m, phase := ffPhase m p, log := ffLog m p })
          vars := vars }

/-- Modelled from the spec: `state_dict()` — per-modifier phase plus the
resolved variable snapshot (spec section 4.5). -/
def stateDict (s : SchedState) : List (String × Phase) × List (String × ℚ) :=
  (s.insts.map (fun i => (i.spec.name, i.phase)), s.vars)

/-- Modelled from the spec: `load_state_dict()` — restore the saved phase of
every modifier of a freshly built scheduler, failing with
`ResumeInconsistencyError` left out of scope here when a name is absent the
saved phase defaults to the freshly loaded one (spec section 4.5). -/
def loadStateDict (s : SchedState) (saved : List (String × Phase) × List (String × ℚ)) :
    SchedState :=
  { insts := s.insts.map
      (fun i => { i with phase := (saved.1.lookup i.spec.name).getD i.phase })
    vars := saved.2 }

/-! ## Expression/Variable Resolver (spec section 4.1) -/

/-- Modelled from the spec: the tiny embedded expression language for
formula-valued variables and parameters: numbers, names and the four
arithmetic operators (spec sections 4.1 and 9; the recipe surface syntax
`eval(num_epochs)` is the `var` case).  Comparisons are omitted: no claim
exercises them. -/
inductive Expr where
  | num (q : ℚ)
  | var (name : String)
  | add (a b : Expr)
  | sub (a b : Expr)
  | mul (a b : Expr)
  | div (a b : Expr)
deriving DecidableEq, Repr

/-- Lexicographic comparison of character lists by code point, used to sort
variable names (kernel-computable). -/
def charListLe : List Char → List Char → Bool
  | [], _ => true
  | _ :: _, [] => false
  | c :: cs, d :: ds =>
    if c.toNat = d.toNat then charListLe cs ds
    else decide (c.toNat < d.toNat)

theorem char_toNat_inj {c d : Char} (h : c.toNat = d.toNat) : c = d :=
  Char.ext (UInt32.ext h)

theorem charListLe_total :
    ∀ a b : List Char, charListLe a b = true ∨ charListLe b a = true
  | [], _ => Or.inl rfl
  | _ :: _, [] => Or.inr rfl
  | c :: cs, d :: ds => by
    simp only [charListLe]
    by_cases hcd : c.toNat = d.toNat
    · rw [if_pos hcd, if_pos hcd.symm]
      exact charListLe_total cs ds
    · rw [if_neg hcd, if_neg (fun h => hcd h.symm)]
      rcases Nat.lt_or_ge c.toNat d.toNat with h | h
      · exact Or.inl (decide_eq_true h)
      · have hdc : d.toNat < c.toNat :=
          Nat.lt_of_le_of_ne h (fun hh => hcd hh.symm)
        exact Or.inr (decide_eq_true hdc)

theorem charListLe_trans :
    ∀ a b c : List Char, charListLe a b = true → charListLe b c = true →
      charListLe a c = true
  | [], _, _, _, _ => rfl
  | _ :: _, [], _, hab, _ => absurd hab (by simp [charListLe])
  | _ :: _, _ :: _, [], _, hbc => absurd hbc (by simp [charListLe])
  | x :: xs, y :: ys, z :: zs, hab, hbc => by
    simp only [charListLe] at hab hbc ⊢
    by_cases hxy : x.toNat = y.toNat <;> by_cases hyz : y.toNat = z.toNat
    · rw [if_pos hxy] at hab
      rw [if_pos hyz] at hbc
      rw [if_pos (hxy.trans hyz)]
      exact charListLe_trans xs ys zs hab hbc
    · rw [if_pos hxy] at hab
      rw [if_neg hyz] at hbc
      rw [if_neg (fun h => hyz (hxy.symm.trans h))]
      have h2 := of_decide_eq_true hbc
      exact decide_eq_true (by omega)
    · rw [if_neg hxy] at hab
      rw [if_pos hyz] at hbc
      rw [if_neg (fun h => hxy (h.trans hyz.symm))]
      have h1 := of_decide_eq_true hab
      exact decide_eq_true (by omega)
    · rw [if_neg hxy] at hab
      rw [if_neg hyz] at hbc
      have h1 := of_decide_eq_true hab
      have h2 := of_decide_eq_true hbc
      by_cases hxz : x.toNat = z.toNat
      · omega
      · rw [if_neg hxz]
        exact decide_eq_true (by omega)

theorem charListLe_antisymm :
    ∀ a b : List Char, charListLe a b = true → charListLe b a = true → a = b
  | [], [], _, _ => rfl
  | [], _ :: _, _, hba => absurd hba (by simp [charListLe])
  | _ :: _, [], hab, _ => absurd hab (by simp [charListLe])
  | x :: xs, y :: ys, hab, hba => by
    simp only [charListLe] at hab hba
    by_cases hxy : x.toNat = y.toNat
    · rw [if_pos hxy] at hab
      rw [if_pos hxy.symm] at hba
      rw [char_toNat_inj hxy, charListLe_antisymm xs ys hab hba]
    · rw [if_neg hxy] at hab
      rw [if_neg (fun h => hxy h.symm)] at hba
      have h1 := of_decide_eq_true hab
      have h2 := of_decide_eq_true hba
      omega

/-- Key order used to sort variables by name before resolution. -/
def keyLE (a b : String × Expr) : Prop := charListLe a.1.data b.1.data = true

instance : DecidableRel keyLE := fun a b => by unfold keyLE; infer_instance

instance : IsTotal (String × Expr) keyLE :=
  ⟨fun a b => charListLe_total a.1.data b.1.data⟩

instance : IsTrans (String × Expr) keyLE :=
  ⟨fun _ _ _ h h' => charListLe_trans _ _ _ h h'⟩

/-- Modelled from the spec: sort the variable keys before resolving, to make
the result independent of the iteration order of the unordered input
(spec section 4.1). -/
def sortVars (l : List (String × Expr)) : List (String × Expr) :=
  l.insertionSort keyLE

/-- Size of an expression, used to bound the resolver's work. -/
def exprSize : Expr → Nat
  | .num _ => 1
  | .var _ => 1
  | .add a b => exprSize a + exprSize b + 1
  | .sub a b => exprSize a + exprSize b + 1
  | .mul a b => exprSize a + exprSize b + 1
  | .div a b => exprSize a + exprSize b + 1

/-- Modelled from the spec: recursive resolution of one formula against the
variable table, with a visited set for cycle detection
(`CyclicVariableError`) and `UndefinedVariableError` for unknown names
(spec section 4.1).  The fuel bounds the total resolution work; the caller
passes enough for every acyclic table (`varFuel`), so exhaustion only occurs
past a reference cycle, which the visited set already reports. -/
def resolveExprFuel (tbl : List (String × Expr)) :
    Nat → List String → Expr → Except LoadErr ℚ
  | 0, _, _ => .error (.cyclicVariable "")
  | _ + 1, _, .num q => .ok q
  | fuel + 1, visited, .var n =>
    if n ∈ visited then .error (.cyclicVariable n)
    else
      match tbl.lookup n with
      | none => .error (.undefinedVariable n)
      | some e => resolveExprFuel tbl fuel (n :: visited) e
  | fuel + 1, visited, .add a b =>
    match resolveExprFuel tbl fuel visited a with
    | .error err => .error err
    | .ok qa =>
      match resolveExprFuel tbl fuel visited b with
      | .error err => .error err
      | .ok qb => .ok (qa + qb)
  | fuel + 1, visited, .sub a b =>
    match resolveExprFuel tbl fuel visited a with
    | .error err => .error err
    | .ok qa =>
      match resolveExprFuel tbl fuel visited b with
      | .error err => .error err
      | .ok qb => .ok (qa - qb)
  | fuel + 1, visited, .mul a b =>
    match resolveExprFuel tbl fuel visited a with
    | .error err => .error err
    | .ok qa =>
      match resolveExprFuel tbl fuel visited b with
      | .error err => .error err
      | .ok qb => .ok (qa * qb)
  | fuel + 1, visited, .div a b =>
    match resolveExprFuel tbl fuel visited a with
    | .error err => .error err
    | .ok qa =>
      match resolveExprFuel tbl fuel visited b with
      | .error err => .error err
      | .ok qb => .ok (qa / qb)

/-- Fuel sufficient for any acyclic resolution over the table: at most one
traversal of every table formula per distinct variable on the reference
chain. -/
def varFuel (tbl : List (String × Expr)) : Nat :=
  (tbl.length + 1) * ((tbl.map (fun kv => exprSize kv.2)).sum + 1)

/-- Resolve every entry of an already-sorted table in order. -/
def resolvePairs (tbl : List (String × Expr)) :
    List (String × Expr) → Except LoadErr (List (String × ℚ))
  | [] => .ok []
  | (n, e) :: rest =>
    match resolveExprFuel tbl (varFuel tbl) [n] e with
    | .error err => .error err
    | .ok q =>
      match resolvePairs tbl rest with
      | .error err => .error err
      | .ok tail => .ok ((n, q) :: tail)

/-- Modelled from the spec: the Expression/Variable Resolver: sort the keys,
then produce a fully-resolved name-to-literal mapping (spec section 4.1). -/
def resolveAll (l : List (String × Expr)) : Except LoadErr (List (String × ℚ)) :=
  resolvePairs (sortVars l) (sortVars l)

/-! ## Recipe Parser and Serializer (spec sections 4.2 and 4.6) -/

/-- Modelled from the spec: a raw modifier block of the recipe text: type
tag, name, raw (possibly formula-valued) interval bounds, targets and
parameters (spec sections 3 and 4.2). -/
structure RawModifier where
  tag : String
  name : String
  startE : Expr
  stopE : Option Expr
  targets : List String
  params : List (String × Expr)
deriving DecidableEq, Repr

/-- Modelled from the spec: a named stage: an ordered list of modifier blocks
(spec section 3). -/
structure RecStage where
  sname : String
  mods : List RawModifier
deriving DecidableEq, Repr

/-- Modelled from the spec: a structured recipe document: top-level variables
plus named stages of typed modifier blocks (spec section 6). -/
structure RecipeText where
  vars : List (String × Expr)
  stages : List RecStage
deriving DecidableEq, Repr

/-- Modelled from the spec: the registry mapping type-tag string to the
modifier construction (here: its scheduling granularity), passed explicitly
to the Parser (spec section 9). -/
abbrev Registry := List (String × Gran)

/-- Modelled from the spec: apply `recipe_args` overrides to the top-level
variables strictly before resolution; unknown override names are collected as
non-fatal warnings (spec sections 4.2 and 6).  Returns the overridden
variables and the warned keys. -/
def applyOverrides (ov : List (String × ℚ)) (vars : List (String × Expr)) :
    List (String × Expr) × List String :=
  (vars.map (fun kv =>
      match ov.lookup kv.1 with
      | some q => (kv.1, Expr.num q)
      | none => kv),
   (ov.filter (fun kv => !((vars.map Prod.fst).contains kv.1))).map Prod.fst)

/-- First unknown modifier type tag of the document, with its stage name
(spec section 4.2). -/
def checkTags (reg : Registry) : List RecStage → Option (String × String)
  | [] => none
  | st :: rest =>
    match st.mods.find? (fun m => (reg.lookup m.tag).isNone) with
    | some m => some (m.tag, st.sname)
    | none => checkTags reg rest

/-- Evaluate a formula against the fully-resolved variable mapping. -/
def evalExpr (env : List (String × ℚ)) : Expr → Except LoadErr ℚ
  | .num q => .ok q
  | .var n =>
    match env.lookup n with
    | some q => .ok q
    | none => .error (.undefinedVariable n)
  | .add a b => do pure ((← evalExpr env a) + (← evalExpr env b))
  | .sub a b => do pure ((← evalExpr env a) - (← evalExpr env b))
  | .mul a b => do pure ((← evalExpr env a) * (← evalExpr env b))
  | .div a b => do pure ((← evalExpr env a) / (← evalExpr env b))

/-- Evaluate a raw parameter list against the resolved variables. -/
def evalParams (env : List (String × ℚ)) :
    List (String × Expr) → Except LoadErr (List (String × ℚ))
  | [] => .ok []
  | (n, e) :: rest =>
    match evalExpr env e with
    | .error err => .error err
    | .ok q =>
      match evalParams env rest with
      | .error err => .error err
      | .ok tail => .ok ((n, q) :: tail)

/-- Evaluate the optional raw end bound. -/
def evalStop (env : List (String × ℚ)) : Option Expr → Except LoadErr (Option ℚ)
  | none => .ok none
  | some ex =>
    match evalExpr env ex with
    | .error err => .error err
    | .ok q => .ok (some q)

/-- Does a resolved interval satisfy the `start <= end` invariant
(spec section 3)? -/
def validBounds (s : ℚ) : Option ℚ → Bool
  | some e => decide (s ≤ e)
  | none => true

/-- Modelled from the spec: construct one resolved ModifierSpec from a raw
block: resolve bounds and parameters against the variables, validate the
interval, and look the granularity up in the registry
(spec sections 3 and 4.2). -/
def buildMod (reg : Registry) (env : List (String × ℚ)) (sname : String)
    (m : RawModifier) : Except LoadErr ModifierSpec :=
  match evalExpr env m.startE with
  | .error err => .error err
  | .ok s =>
    match evalStop env m.stopE with
    | .error err => .error err
    | .ok e? =>
      match evalParams env m.params with
      | .error err => .error err
      | .ok ps =>
        if validBounds s e? then
          .ok { name := m.name, tag := m.tag, stage := sname, start := s, stop := e?
                targets := m.targets, params := ps
                granularity := ((reg.lookup m.tag).getD .epoch) }
        else .error (.invalidInterval m.name)

/-- Build every modifier of one stage. -/
def buildStageMods (reg : Registry) (env : List (String × ℚ)) (sname : String) :
    List RawModifier → Except LoadErr (List ModifierSpec)
  | [] => .ok []
  | m :: rest =>
    match buildMod reg env sname m with
    | .error err => .error err
    | .ok spec =>
      match buildStageMods reg env sname rest with
      | .error err => .error err
      | .ok tail => .ok (spec :: tail)

/-- Build the flattened, declaration-ordered modifier list of all stages. -/
def buildStages (reg : Registry) (env : List (String × ℚ)) :
    List RecStage → Except LoadErr (List ModifierSpec)
  | [] => .ok []
  | st :: rest =>
    match buildStageMods reg env st.sname st.mods with
    | .error err => .error err
    | .ok ms =>
      match buildStages reg env rest with
      | .error err => .error err
      | .ok tail => .ok (ms ++ tail)

/-- Modelled from the spec: the Recipe Parser: reject unknown modifier type
tags, apply the `recipe_args` overrides before resolution, resolve the
variables, then build every resolved ModifierSpec; a malformed recipe is
rejected entirely, nothing is partially applied (spec sections 4.2 and 4.5).
Returns the resolved modifiers, the resolved variables and the override
warnings. -/
def parseRecipe (reg : Registry) (ov : List (String × ℚ)) (rt : RecipeText) :
    Except LoadErr (List ModifierSpec × List (String × ℚ) × List String) :=
  match checkTags reg rt.stages with
  | some (tag, st) => .error (.unknownModifierType tag st)
  | none =>
    match resolveAll (applyOverrides ov rt.vars).1 with
    | .error e => .error e
    | .ok env =>
      match buildStages reg env rt.stages with
      | .error e => .error e
      | .ok mods => .ok (mods, env, (applyOverrides ov rt.vars).2)

/-- Modelled from the spec: `load(recipe, start_position)` from the textual
recipe: parse (with overrides), then build the scheduler
(spec section 4.5).  Returns the scheduler state and the override warnings. -/
def loadText (reg : Registry) (ov : List (String × ℚ)) (rt : RecipeText) (p : ℚ) :
    Except LoadErr (SchedState × List String) :=
  match parseRecipe reg ov rt with
  | .error e => .error e
  | .ok (mods, env, warns) =>
    match loadMods env mods p with
    | .error e => .error e
    | .ok s => .ok (s, warns)

/-- Render one resolved spec back into a raw modifier block with literal
(already-resolved) values (spec section 4.6). -/
def rawOf (m : ModifierSpec) : RawModifier :=
  { tag := m.tag, name := m.name, startE := Expr.num m.start
    stopE := m.stop.map Expr.num, targets := m.targets
    params := m.params.map (fun kv => (kv.1, Expr.num kv.2)) }

/-- Modelled from the spec: the Recipe Serializer: regenerate a textual
recipe from the live modifier set and the resolved variable snapshot, with
resolved literal values rather than formula strings (spec section 4.6). -/
def serialize (s : SchedState) : RecipeText :=
  { vars := s.vars.map (fun kv => (kv.1, Expr.num kv.2))
    stages := s.insts.map (fun i => { sname := i.spec.stage, mods := [rawOf i.spec] }) }

/-! ## The two awk rewrite scripts (src/unnamed/part_000 and the script
appended to src/unnamed/part_001)

The scripts are embedded as functions on lists of input lines.  A line is a
list of characters.  The unanchored awk `/pat/` tests are embedded by
`patSub`, in which an unescaped `.` of the source regex is a wildcard
matching any character; every other regex metacharacter the scripts use is
escaped (literal), an anchored `^...` test is a prefix / whitespace check,
and a leading `\s*` matches the empty string, so it is dropped.  awk's
record processing is modelled exactly, including two
behaviours that matter for the claims: (1) lines consumed by `getline`
look-ahead loops bypass the top-level rule list (so also the sparsezoo-import
filter); (2) in part_000 the three intended state variables are reset to 0 by the
bare expression patterns on every record, so the `in_create_method`,
`in_create_zoo_model_method` and `in_registered_wrapper_wrapper_func` rules
can only fire inside the record that set them. -/

/-- An input line of the rewritten python file. -/
abbrev Line := List Char

/-- Is `c` a whitespace character (awk `\s`, restricted to the characters
that can occur inside a line)? -/
def wsChar (c : Char) : Bool := c == ' ' || c == '\t' || c == '\r'

/-- One awk regex pattern character against one subject character: an
unescaped `.` in the scripts' patterns is a regex wildcard matching any
character; every other pattern character is literal. -/
def patChar (p c : Char) : Bool := p == '.' || p == c

/-- Does the pattern match at the start of the subject (with `.` as a
wildcard)? -/
def patHead : Line → Line → Bool
  | [], _ => true
  | _ :: _, [] => false
  | p :: ps, c :: cs => patChar p c && patHead ps cs

/-- The unanchored awk `/pat/` search: the pattern, with an unescaped `.`
as a wildcard, matches at some position of the line. -/
def patSub (pat : Line) : Line → Bool
  | [] => pat.isEmpty
  | c :: rest => patHead pat (c :: rest) || patSub pat rest

/-- part_000, line 4: the sparsezoo import deleted from ModelRegistry. -/
def import000 : Line := "from sparsezoo import Model, model_args_to_stub".data

/-- part_000, line 12. -/
def createPat000 : Line := "def create(".data

/-- part_000, line 55. -/
def createZooPat000 : Line := "def create_zoo_model(".data

/-- part_000, line 75. -/
def wrapperPat000 : Line := "def wrapper(".data

/-- part_000, line 79: docstring-shaped continuation (12 spaces + quote). -/
def pad12quote : Line := "            \"".data

/-- part_000, line 79: docstring-shaped continuation (16 spaces + quote). -/
def pad16quote : Line := "                \"".data

/-- part_000, line 80. -/
def docPathPat000 : Line := "A path to the pretrained weights to load".data

/-- part_000, line 84. -/
def docZooStubPat000 : Line := "a SparseZoo stub path preceded by \x27zoo:\x27".data

/-- part_000, line 87. -/
def docRecipePat000 : Line := "If given a recipe type, the base".data

/-- part_000, line 90. -/
def docTruePat000 : Line := "True to load the default pretrained weights".data

/-- part_000, line 107. -/
def returnWrapperPat000 : Line := "return wrapper".data

/-- part_000, line 114 (the dot of `ModelRegistry.create_zoo_model` is an
unescaped regex wildcard). -/
def zooModelPat000 : Line := "zoo_model = ModelRegistry.create_zoo_model(".data

/-- part_000, line 134. -/
def downloadPat000 : Line := "path = download_framework_model_by_recipe_type(zoo_model)".data

/-- part_000, line 117. -/
def exceptPat000 : Line := "except Exception:".data

/-- part_000, line 124. -/
def returnModelPat000 : Line := "return model".data

/-- part_000, lines 81-83: the replacement for the pretrained_path docstring
line. -/
def fixedPath000 : List Line :=
  [("            :param pretrained_path: A path to the pretrained weights to load,").data,
   ("                if provided will override the pretrained param.").data,
   ("                NOTE: SparseZoo stub paths (e.g. \x27zoo:...\x27) are no longer supported.").data]

/-- part_000, lines 91-94: the replacement for the pretrained docstring
line. -/
def fixedTrue000 : List Line :=
  [("            :param pretrained: True to load the default pretrained weights (if available locally via pretrained_path),").data,
   ("                a string to load a specific pretrained weight (if available locally via pretrained_path),").data,
   ("                or False to not load any pretrained weights.").data,
   ("                NOTE: Automatic download from SparseZoo is no longer supported.").data]

/-- All fixed replacement lines part_000 can emit. -/
def fixed000 : List Line := fixedPath000 ++ fixedTrue000

/-- Does a line pass the wrapper docstring while-loop condition of part_000
(line 79): 12-spaces-quote, 16-spaces-quote, or whitespace-only? -/
def docShaped000 (l : Line) : Bool :=
  pad12quote.isPrefixOf l || pad16quote.isPrefixOf l || l.all wsChar

/-- Lines printed for one docstring line inside part_000's wrapper loop
(lines 80-97). -/
def docEmit000 (l : Line) : List Line :=
  if patSub docPathPat000 l then fixedPath000
  else if patSub docZooStubPat000 l then []
  else if patSub docRecipePat000 l then []
  else if patSub docTruePat000 l then fixedTrue000
  else [l]

/-- part_000, line 107: `/^        return wrapper/ || /^\s*return wrapper/`
(the second pattern subsumes the first). -/
def isReturnWrapper000 (l : Line) : Bool :=
  returnWrapperPat000.isPrefixOf (l.dropWhile wsChar)

/-- Control mode of the part_000 interpreter: the top-level rule list, the
wrapper docstring getline loop (line 79, carrying the line last read), the
record-completion rules of the `wrapper` function body (lines 105-144,
carrying the line that ended the docstring loop), and the zoo_model getline
loop (lines 116-128). -/
inductive M000 where
  | top
  | wrap (cur : Line)
  | r9 (cur : Line)
  | zskip

/-- Rank used to order the same-input-length mode transitions of `go000`. -/
def rank000 : M000 → Nat
  | .top => 0
  | .zskip => 1
  | .r9 _ => 2
  | .wrap _ => 3

/-- The part_000 awk script (sparsezoo removal from
src/sparseml/pytorch/models/registry.py), as a function from input lines to
output lines.  Because every record re-runs the bare assignment patterns
(part_000 lines 7-9), the three state flags are always 0 at the top level,
so the only live rules per record are: delete the sparsezoo import (line 4),
print `def create(` lines (lines 12-16), drop the `def create_zoo_model(`
definition line (lines 55-59), and the `def wrapper(` rule (lines 75-102)
whose getline loops are the `wrap`/`r9`/`zskip` modes; everything else falls
through to the default print (line 147). -/
def go000 : M000 → List Line → List Line
  | .top, [] => []
  | .top, l :: ls =>
    if patSub import000 l then go000 .top ls
    else if patSub createPat000 l then l :: go000 .top ls
    else if patSub createZooPat000 l then go000 .top ls
    else if patSub wrapperPat000 l then l :: go000 (.wrap l) ls
    else l :: go000 .top ls
  | .wrap cur, [] => go000 (.r9 cur) []
  | .wrap _, x :: xs =>
    if docShaped000 x then docEmit000 x ++ go000 (.wrap x) xs
    else go000 (.r9 x) xs
  | .r9 cur, rest =>
    if isReturnWrapper000 cur then cur :: go000 .top rest
    else if patSub zooModelPat000 cur then go000 .zskip rest
    else if patSub downloadPat000 cur then go000 .top rest
    else cur :: go000 .top rest
  | .zskip, [] => []
  | .zskip, x :: xs =>
    if patSub exceptPat000 x then go000 .top (xs.drop 2)
    else if patSub returnModelPat000 x then x :: go000 .top xs
    else go000 .zskip xs
  termination_by m input => input.length * 4 + rank000 m
  decreasing_by all_goals simp [rank000, List.length_drop] <;> omega

/-- Run the part_000 awk script on an input file. -/
def run000 (input : List Line) : List Line := go000 .top input

/-- part_001 script, line 903: the sparsezoo import deleted from
Recipe.create_instance. -/
def import001 : Line := "from sparsezoo import Model".data

/-- part_001 script, line 906 (the two dots of `os.path.isfile` are
unescaped regex wildcards). -/
def isfilePat001 : Line := "if not os.path.isfile(path_or_modifiers):".data

/-- part_001 script, line 918 (the dot before `startswith` is an unescaped
regex wildcard). -/
def customZooPat001 : Line := "if path_or_modifiers.startswith(\"custom_zoo:\"):".data

/-- part_001 script, lines 922 and 935 (the dot before `startswith` is an
unescaped regex wildcard). -/
def elifZooPat001 : Line := "elif path_or_modifiers.startswith(\"zoo:\"):".data

/-- part_001 script, lines 922, 926, 938 and 951. -/
def elseAssumePat001 : Line := "else:  # assume it\x27s a string".data

/-- Control mode of the part_001 interpreter: the top-level rule list with
the current `in_conditional_block` flag, the custom_zoo skip loop
(lines 918-933) and the zoo skip loop (lines 935-946). -/
inductive M001 where
  | top (b : Bool)
  | cz
  | z

/-- The awk script appended to src/unnamed/part_001 (sparsezoo removal from
Recipe.create_instance), as a function from input lines to output lines.
The import rule (line 903) deletes matching top-level records; the isfile
rule (lines 906-914) prints the matched record plus the record read by
`getline` (both branches of its if/else print the consumed line) and raises
`in_conditional_block`; inside the conditional block, the custom_zoo and zoo
skip loops consume records until a terminator, printing the terminator and
lowering the flag when it is the `else:  # assume ...` line; the plain
`printing` rule (line 962) prints everything else. -/
def go001 : M001 → List Line → List Line
  | .top _, [] => []
  | .top b, l :: ls =>
    if patSub import001 l then go001 (.top b) ls
    else if patSub isfilePat001 l then
      match ls with
      | [] => [l, l]
      | x :: xs => l :: x :: go001 (.top true) xs
    else if b then
      if patSub customZooPat001 l then go001 .cz ls
      else if patSub elifZooPat001 l then go001 .z ls
      else if patSub elseAssumePat001 l then l :: go001 (.top false) ls
      else l :: go001 (.top true) ls
    else l :: go001 (.top false) ls
  | .cz, [] => []
  | .cz, x :: xs =>
    if patSub elifZooPat001 x || patSub elseAssumePat001 x then
      x :: go001 (.top (!(patSub elseAssumePat001 x))) xs
    else go001 .cz xs
  | .z, [] => []
  | .z, x :: xs =>
    if patSub elseAssumePat001 x then x :: go001 (.top false) xs
    else go001 .z xs
  termination_by _ input => input.length

/-- Run the part_001 awk script on an input file (the
`in_conditional_block` flag starts unset). -/
def run001 (input : List Line) : List Line := go001 (.top false) input

/-! ## The token-classification notebook's compute_metrics
(src/unnamed/part_001, cell at lines 221-264) -/

/-- src/unnamed/part_001, line 217: labels with this id are special tokens
filtered out of the metric. -/
def SPECIAL_TOKEN_ID : Int := -100

/-- src/unnamed/part_001, lines 201-211: mapping from tag index to tag
label.  Indices outside 0-8 raise a KeyError in the python source; they are
totalized here with a sentinel, which no claim exercises. -/
def LABEL_MAP : Int → String := fun i =>
  if i = 0 then "O"
  else if i = 1 then "B-PER"
  else if i = 2 then "I-PER"
  else if i = 3 then "B-ORG"
  else if i = 4 then "I-ORG"
  else if i = 5 then "B-LOC"
  else if i = 6 then "I-LOC"
  else if i = 7 then "B-MISC"
  else if i = 8 then "I-MISC"
  else "KeyError"

/-- src/unnamed/part_001, lines 237-244: `true_predictions` — per row, keep
the predicted tag of every zip position whose label is not
SPECIAL_TOKEN_ID, mapped through LABEL_MAP.  `predictions` is the result of
the argmax (line 234), one predicted index per token. -/
def truePredictions (predictions labels : List (List Int)) : List (List String) :=
  (predictions.zip labels).map (fun pl =>
    ((pl.1.zip pl.2).filter (fun x => x.2 != SPECIAL_TOKEN_ID)).map
      (fun x => LABEL_MAP x.1))

/-- src/unnamed/part_001, lines 245-252: `true_labels` — per row, keep the
label of every zip position whose label is not SPECIAL_TOKEN_ID, mapped
through LABEL_MAP. -/
def trueLabels (predictions labels : List (List Int)) : List (List String) :=
  (predictions.zip labels).map (fun pl =>
    ((pl.1.zip pl.2).filter (fun x => x.2 != SPECIAL_TOKEN_ID)).map
      (fun x => LABEL_MAP x.2))

/-! ## General lemmas about the engine model -/

theorem phaseLe_refl (a : Phase) : phaseLe a a := le_refl _

theorem phaseLe_trans {a b c : Phase} (h : phaseLe a b) (h' : phaseLe b c) :
    phaseLe a c := le_trans h h'

theorem phaseLe_maxPhase_left (a b : Phase) : phaseLe a (maxPhase a b) := by
  cases a <;> cases b <;> simp [maxPhase, phaseLe, phaseIdx]

theorem finished_of_phaseLe {a : Phase} (h : phaseLe .finished a) : a = .finished := by
  cases a <;> simp [phaseLe, phaseIdx] at h ⊢

theorem maxPhase_absorb {a b c : Phase} (h : phaseLe b c) :
    maxPhase (maxPhase a b) c = maxPhase a c := by
  cases a <;> cases b <;> cases c <;>
    simp [maxPhase, phaseLe, phaseIdx] at h ⊢

theorem advancePhase_fst (m : ModifierSpec) (p : ℚ) (ph : Phase) :
    (advancePhase m p ph).1 = maxPhase ph (phaseOf m p) := by
  cases ph <;> cases h : phaseOf m p <;> simp [advancePhase, maxPhase, h]

theorem phaseOf_mono (m : ModifierSpec) {p q : ℚ} (h : p ≤ q) :
    phaseLe (phaseOf m p) (phaseOf m q) := by
  unfold phaseLe phaseOf
  rcases hm : m.stop with _ | e <;> simp only [hm] <;> split_ifs <;>
    simp [phaseIdx] <;> linarith

theorem instOp_spec (op : Op) (i : Inst) : (instOp op i).spec = i.spec := by
  cases op <;> simp [instOp, stepInst, finInst] <;> split <;> simp

theorem instOp_phase_le (op : Op) (i : Inst) : phaseLe i.phase (instOp op i).phase := by
  cases op <;> simp only [instOp, stepInst, finInst]
  case step p =>
    split
    · simp [advancePhase_fst]; exact phaseLe_maxPhase_left _ _
    · exact phaseLe_refl _
  case epoch p =>
    split
    · simp [advancePhase_fst]; exact phaseLe_maxPhase_left _ _
    · exact phaseLe_refl _
  case finAll =>
    split
    · rename_i h; simp [h, phaseLe, phaseIdx]
    · exact phaseLe_refl _

/-- Per-instance view of a run of scheduler operations. -/
def instRun (ops : List Op) (i : Inst) : Inst :=
  ops.foldl (fun i op => instOp op i) i

theorem instRun_spec (ops : List Op) (i : Inst) : (instRun ops i).spec = i.spec := by
  induction ops generalizing i with
  | nil => rfl
  | cons op ops ih => simpa [instRun, instOp_spec] using (ih (instOp op i)).trans (instOp_spec op i)

theorem instRun_phase_le (ops : List Op) (i : Inst) :
    phaseLe i.phase (instRun ops i).phase := by
  induction ops generalizing i with
  | nil => exact phaseLe_refl _
  | cons op ops ih =>
    exact phaseLe_trans (instOp_phase_le op i) (ih (instOp op i))

theorem runOps_insts (s : SchedState) (ops : List Op) :
    (runOps s ops).insts = s.insts.map (instRun ops) := by
  induction ops generalizing s with
  | nil =>
    rw [show instRun ([] : List Op) = fun i => i from rfl]
    simp [runOps]
  | cons op ops ih =>
    show (runOps (applyOp s op) ops).insts = _
    rw [ih]
    simp only [applyOp, List.map_map]
    refine List.map_congr_left ?_
    intro a _
    rfl

/-! ## C10: compute_metrics alignment (real code, src/unnamed/part_001) -/

/-- C10: in the token-classification notebook's `compute_metrics`, the
filtered lists are pairwise length-aligned: the outer lists have the same
length, and for each row index the kept predictions and kept labels have
equal length, both keeping exactly the zip positions whose label differs
from SPECIAL_TOKEN_ID. -/
theorem C10_true_lists_aligned (predictions labels : List (List Int)) :
    (truePredictions predictions labels).length = (trueLabels predictions labels).length
    ∧ ∀ (i : Nat) (h1 : i < (truePredictions predictions labels).length)
        (h2 : i < (trueLabels predictions labels).length),
        ((truePredictions predictions labels).get ⟨i, h1⟩).length
          = ((trueLabels predictions labels).get ⟨i, h2⟩).length := by
  constructor
  · simp [truePredictions, trueLabels]
  · intro i h1 h2
    simp [truePredictions, trueLabels, List.get_eq_getElem]

/-- C10 witness: the alignment at a concrete prediction/label pair. -/
theorem C10_witness :
    (0 < (truePredictions [[0, 1, 3]] [[-100, 2, -100]]).length)
    ∧ ((truePredictions [[0, 1, 3]] [[-100, 2, -100]]).get ⟨0, by decide⟩).length
        = ((trueLabels [[0, 1, 3]] [[-100, 2, -100]]).get ⟨0, by decide⟩).length :=
  ⟨by decide,
   (C10_true_lists_aligned [[0, 1, 3]] [[-100, 2, -100]]).2 0 (by decide) (by decide)⟩

/-! ## C7: resolver determinism (spec-modelled) -/

theorem sorted_perm_nodupKeys_eq :
    ∀ (l₁ l₂ : List (String × Expr)), l₁.Perm l₂ → (l₁.map Prod.fst).Nodup →
      l₁.Sorted keyLE → l₂.Sorted keyLE → l₁ = l₂ := by
  intro l₁
  induction l₁ with
  | nil => intro l₂ hp _ _ _; exact (hp.nil_eq).symm ▸ rfl
  | cons x xs ih =>
    intro l₂ hp hnd hs₁ hs₂
    cases l₂ with
    | nil => exact absurd hp.symm.nil_eq (by simp)
    | cons y ys =>
      have hxy : x = y := by
        by_contra hne
        have hymem : y ∈ x :: xs := hp.mem_iff.mpr (List.mem_cons_self y ys)
        have hxmem : x ∈ y :: ys := hp.mem_iff.mp (List.mem_cons_self x xs)
        have hy : y ∈ xs := by
          rcases List.mem_cons.mp hymem with h | h
          · exact absurd h.symm hne
          · exact h
        have hx : x ∈ ys := by
          rcases List.mem_cons.mp hxmem with h | h
          · exact absurd h hne
          · exact h
        have h1 : keyLE x y := ((List.sorted_cons.mp hs₁).1 y hy)
        have h2 : keyLE y x := ((List.sorted_cons.mp hs₂).1 x hx)
        have hkeys : x.1 = y.1 := String.ext (charListLe_antisymm _ _ h1 h2)
        have : x.1 ∉ xs.map Prod.fst := (List.nodup_cons.mp (by simpa using hnd)).1
        exact this (hkeys ▸ List.mem_map_of_mem Prod.fst hy)
      subst hxy
      have hp' : xs.Perm ys := hp.cons_inv
      have := ih ys hp' (List.nodup_cons.mp (by simpa using hnd)).2
        (List.sorted_cons.mp hs₁).2 (List.sorted_cons.mp hs₂).2
      rw [this]

/-- C7: the Expression/Variable Resolver is deterministic: on two variable
tables that are the same mapping (a permutation of each other, with distinct
names), it produces identical fully-resolved results, because keys are
sorted before resolution. -/
theorem C7_resolver_deterministic (l₁ l₂ : List (String × Expr))
    (hp : l₁.Perm l₂) (hnd : (l₁.map Prod.fst).Nodup) :
    resolveAll l₁ = resolveAll l₂ := by
  have hs : sortVars l₁ = sortVars l₂ := by
    apply sorted_perm_nodupKeys_eq
    · exact ((List.perm_insertionSort keyLE l₁).trans hp).trans
        (List.perm_insertionSort keyLE l₂).symm
    · exact ((List.perm_insertionSort keyLE l₁).map Prod.fst).nodup_iff.mpr hnd
    · exact List.sorted_insertionSort keyLE l₁
    · exact List.sorted_insertionSort keyLE l₂
  unfold resolveAll
  rw [hs]

/-- C7 witness: determinism at a concrete pair of reorderings of the same
mapping. -/
theorem C7_witness :
    ([("b", Expr.num 2), ("a", Expr.var "b")].Perm
        [("a", Expr.var "b"), ("b", Expr.num 2)])
    ∧ resolveAll [("b", Expr.num 2), ("a", Expr.var "b")]
        = resolveAll [("a", Expr.var "b"), ("b", Expr.num 2)] :=
  ⟨List.Perm.swap _ _ _,
   C7_resolver_deterministic _ _ (List.Perm.swap _ _ _) (by decide)⟩

/-! ## C3: progress contract (spec-modelled) -/

/-- The concrete scenario's modifier: active on `[0, 10)`, interpolating a
value linearly from 1.0 to 0.0 (the notebook recipe's
`LearningRateFunctionModifier` shape). -/
def lrLinearMod : ModifierSpec :=
  { name := "lr", tag := "LearningRateFunctionModifier", stage := "training_modifiers"
    start := 0, stop := some 10, targets := ["lr"]
    params := [("init_lr", 1), ("final_lr", 0)], granularity := .step }

theorem update_progress_aux (m : ModifierSpec) (p : ℚ)
    (hpo : phaseOf m p = .active) :
    ∀ e, m.stop = some e →
      progressOf m p = some (clamp01 ((p - m.start) / (e - m.start))) ∧ p < e ∧
      (p = m.start → progressOf m p = some 0) := by
  intro e he
  refine ⟨by simp [progressOf, he], ?_, ?_⟩
  · simp only [phaseOf, he] at hpo
    split_ifs at hpo with h1 h2
    all_goals simp_all
  · intro hp
    simp [progressOf, he, hp, clamp01]

/-- Any single `stepInst` call only appends events, and every appended
`update` carries the engine-supplied progress at the callback position,
satisfying the finite-interval progress contract. -/
theorem stepInst_update_contract (g : Gran) (p : ℚ) (i : Inst) :
    ∃ evs, (stepInst g p i).log = i.log ++ evs ∧
      ∀ pr, Event.update pr ∈ evs →
        pr = progressOf i.spec p ∧
        ∀ e, i.spec.stop = some e →
          pr = some (clamp01 ((p - i.spec.start) / (e - i.spec.start))) ∧ p < e ∧
          (p = i.spec.start → pr = some 0) := by
  unfold stepInst
  by_cases hg : i.spec.granularity = g
  · rw [if_pos hg]
    refine ⟨(advancePhase i.spec p i.phase).2, rfl, ?_⟩
    intro pr hpr
    rcases hph : i.phase <;> rcases hpo : phaseOf i.spec p <;>
      simp only [advancePhase, hph, hpo] at hpr <;>
      simp at hpr
    all_goals
      obtain rfl := hpr
      exact ⟨rfl, fun e he => update_progress_aux i.spec p hpo e he⟩
  · rw [if_neg hg]
    exact ⟨[], by simp, by simp⟩

/-- The position a scheduler operation is delivered at (`finalize_all`
carries none). -/
def opPos : Op → Option ℚ
  | .step p => some p
  | .epoch p => some p
  | .finAll => none

/-- C3: whenever any scheduler operation (`on_step`, `on_epoch` or
`finalize_all`) delivers an `update` to a modifier instance, the event
carries the engine-supplied progress at the operation's position, which
for a finite interval `[start, e)` equals `(p - start)/(e - start)` clamped
to [0,1], is 0 at `p = start`, and is only ever delivered with `p < e`
(`finalize_all` carries no position and hence never delivers an update);
and in the concrete `[0, 10)` linear 1.0-to-0.0 scenario, at position 5 the
progress is 1/2 and the interpolated value is 1/2. -/
theorem C3_progress_contract :
    (∀ (s : SchedState) (op : Op) (i : Inst), i ∈ s.insts →
      ∃ evs, (instOp op i).log = i.log ++ evs ∧
        ∀ pr, Event.update pr ∈ evs →
          ∃ p, opPos op = some p ∧ pr = progressOf i.spec p ∧
            ∀ e, i.spec.stop = some e →
              pr = some (clamp01 ((p - i.spec.start) / (e - i.spec.start))) ∧ p < e ∧
              (p = i.spec.start → pr = some 0))
    ∧ advancePhase lrLinearMod 5 .pending
        = (.active, [.init, .update (some (1/2))])
    ∧ linearInterp 1 0 (1/2) = 1/2 := by
  refine ⟨?_, ?_, by norm_num [linearInterp]⟩
  case refine_2 =>
    have h1 : phaseOf lrLinearMod 5 = .active := by
      simp [phaseOf, lrLinearMod]; norm_num
    have h2 : progressOf lrLinearMod 5 = some (1/2) := by
      simp [progressOf, lrLinearMod, clamp01]; norm_num
    simp [advancePhase, h1, h2]
  intro s op i _
  cases op with
  | step p =>
    obtain ⟨evs, hlog, hup⟩ := stepInst_update_contract .step p i
    exact ⟨evs, hlog, fun pr hpr => ⟨p, rfl, hup pr hpr⟩⟩
  | epoch p =>
    obtain ⟨evs, hlog, hup⟩ := stepInst_update_contract .epoch p i
    exact ⟨evs, hlog, fun pr hpr => ⟨p, rfl, hup pr hpr⟩⟩
  | finAll =>
    refine ⟨if i.phase = .active then [Event.finalize] else [], ?_, ?_⟩
    · simp only [instOp, finInst]
      split_ifs <;> simp
    · intro pr hpr
      split_ifs at hpr <;> simp at hpr

/-- The concrete scenario's modifier delivered per-epoch: the same `[0, 10)`
linear modifier scheduled with epoch granularity. -/
def lrEpochMod : ModifierSpec :=
  { lrLinearMod with granularity := .epoch }

/-- A pending instance of the epoch-granularity concrete modifier. -/
def c3inst : Inst := { spec := lrEpochMod, phase := .pending, log := [] }

/-- A one-modifier scheduler state holding `c3inst`. -/
def c3state : SchedState := { insts := [c3inst], vars := [] }

/-- C3 witness: the update events of one on_epoch call at position 5 on a
scheduler holding the concrete `[0, 10)` epoch-granularity modifier. -/
theorem C3_witness :
    c3inst ∈ c3state.insts ∧
    (∃ evs, (instOp (Op.epoch 5) c3inst).log = c3inst.log ++ evs ∧
      ∀ pr, Event.update pr ∈ evs →
        ∃ p, opPos (Op.epoch 5) = some p ∧ pr = progressOf c3inst.spec p ∧
          ∀ e, c3inst.spec.stop = some e →
            pr = some (clamp01 ((p - c3inst.spec.start) / (e - c3inst.spec.start))) ∧ p < e ∧
            (p = c3inst.spec.start → pr = some 0)) :=
  ⟨by simp [c3state],
   C3_progress_contract.1 c3state (Op.epoch 5) c3inst (by simp [c3state])⟩

/-! ## C4: monotone lifecycle (spec-modelled) -/

theorem instOp_pending_finished (op : Op) (i : Inst) (hp : i.phase = .pending)
    (hf : (instOp op i).phase = .finished) :
    (instOp op i).log = i.log ++ [Event.init, Event.finalize] := by
  cases op with
  | finAll =>
    exfalso
    have hsame : (instOp Op.finAll i).phase = i.phase := by
      simp [instOp, finInst, hp]
    rw [hsame, hp] at hf
    exact absurd hf (by simp)
  | step p =>
    have hi : instOp (Op.step p) i = stepInst Gran.step p i := rfl
    rw [hi] at hf ⊢
    unfold stepInst at hf ⊢
    by_cases hg : i.spec.granularity = Gran.step
    · rw [if_pos hg] at hf ⊢
      rcases hpo : phaseOf i.spec p <;>
        simp_all [advancePhase_fst, advancePhase, hp, hpo, maxPhase]
    · rw [if_neg hg] at hf
      exact absurd (hp ▸ hf) (by simp)
  | epoch p =>
    have hi : instOp (Op.epoch p) i = stepInst Gran.epoch p i := rfl
    rw [hi] at hf ⊢
    unfold stepInst at hf ⊢
    by_cases hg : i.spec.granularity = Gran.epoch
    · rw [if_pos hg] at hf ⊢
      rcases hpo : phaseOf i.spec p <;>
        simp_all [advancePhase_fst, advancePhase, hp, hpo, maxPhase]
    · rw [if_neg hg] at hf
      exact absurd (hp ▸ hf) (by simp)

/-- C4: the lifecycle is monotone Pending → Active → Finished under every
sequence of mutating scheduler operations; a Finished modifier is never
reactivated; a Pending modifier brought to Finished by a single operation
receives exactly the synthetic `initialize` then `finalize` pair with no
`update`; and `load` at a position after a modifier's whole interval leaves
it Finished with exactly the synthetic `initialize`+`finalize` log. -/
theorem C4_monotone_lifecycle :
    (∀ (s : SchedState) (ops : List Op) (j : Nat)
        (h : j < s.insts.length) (h' : j < (runOps s ops).insts.length),
        phaseLe ((s.insts.get ⟨j, h⟩).phase) (((runOps s ops).insts.get ⟨j, h'⟩).phase))
    ∧ (∀ (s : SchedState) (ops : List Op) (j : Nat)
        (h : j < s.insts.length) (h' : j < (runOps s ops).insts.length),
        (s.insts.get ⟨j, h⟩).phase = .finished →
        ((runOps s ops).insts.get ⟨j, h'⟩).phase = .finished)
    ∧ (∀ (op : Op) (i : Inst), i.phase = .pending →
        (instOp op i).phase = .finished →
        (instOp op i).log = i.log ++ [Event.init, Event.finalize])
    ∧ (∀ (vars : List (String × ℚ)) (mods : List ModifierSpec) (p : ℚ) (s : SchedState),
        loadMods vars mods p = .ok s →
        ∀ i ∈ s.insts, entirelyBefore i.spec p = true →
          i.phase = .finished ∧ i.log = [Event.init, Event.finalize]) := by
  have hget : ∀ (s : SchedState) (ops : List Op) (j : Nat)
      (h : j < s.insts.length) (h' : j < (runOps s ops).insts.length),
      (runOps s ops).insts.get ⟨j, h'⟩ = instRun ops (s.insts.get ⟨j, h⟩) := by
    intro s ops j h h'
    have := runOps_insts s ops
    simp [List.get_eq_getElem]
    rw [List.getElem_of_eq this]
    simp
  refine ⟨?_, ?_, ?_, ?_⟩
  · intro s ops j h h'
    rw [hget s ops j h h']
    exact instRun_phase_le ops _
  · intro s ops j h h' hfin
    rw [hget s ops j h h']
    exact finished_of_phaseLe (hfin ▸ instRun_phase_le ops (s.insts.get ⟨j, h⟩))
  · exact instOp_pending_finished
  · intro vars mods p s hok i hi hbefore
    unfold loadMods at hok
    rcases hfc : findConflict mods with _ | c
    · rw [hfc] at hok
      simp only [Except.ok.injEq] at hok
      subst hok
      simp only [List.mem_map] at hi
      obtain ⟨m, _, rfl⟩ := hi
      simp only at hbefore
      exact ⟨by simp [ffPhase, hbefore], by simp [ffLog, hbefore]⟩
    · rw [hfc] at hok
      obtain ⟨a, b, t⟩ := c
      simp at hok

/-- Modifier whose interval `[0, 3)` lies entirely before the resume
position 5 used in concrete statements. -/
def mPast : ModifierSpec :=
  { name := "m", tag := "t", stage := "s", start := 0, stop := some 3
    targets := [], params := [], granularity := Gran.step }

/-- Scheduler state produced by `loadMods [] [mPast] 5`. -/
def sPast : SchedState :=
  { insts := [{ spec := mPast, phase := .finished, log := [.init, .finalize] }]
    vars := [] }

/-- C4 witness: monotonicity, the finished phase and the load fast-forward at
concrete inputs. -/
theorem C4_witness :
    (phaseLe
      ((({ insts := [{ spec := lrLinearMod, phase := .pending, log := [] }],
           vars := [] } : SchedState).insts).get ⟨0, by simp⟩).phase
      (((runOps { insts := [{ spec := lrLinearMod, phase := .pending, log := [] }],
                  vars := [] } [Op.step 5]).insts).get ⟨0, by simp [runOps, applyOp]⟩).phase)
    ∧ (loadMods [] [mPast] 5 = .ok sPast)
    ∧ ((sPast.insts.get ⟨0, by simp [sPast]⟩).phase = Phase.finished
        ∧ (sPast.insts.get ⟨0, by simp [sPast]⟩).log = [Event.init, Event.finalize]) := by
  refine ⟨?_, rfl, ?_⟩
  · exact C4_monotone_lifecycle.1
      { insts := [{ spec := lrLinearMod, phase := .pending, log := [] }], vars := [] }
      [Op.step 5] 0 (by simp) (by simp [runOps, applyOp])
  · exact C4_monotone_lifecycle.2.2.2 [] [mPast] 5 sPast rfl
      (sPast.insts.get ⟨0, by simp [sPast]⟩) (by simp [sPast]) rfl

/-! ## C1: checkpoint resume vs fresh advance (spec-modelled) -/

/-- An operation admissible in a fresh advance from 0 to `P`: an `on_step` or
`on_epoch` call at a position in `[0, P]`. -/
def goodOp (P : ℚ) : Op → Prop
  | .step p => 0 ≤ p ∧ p ≤ P
  | .epoch p => 0 ≤ p ∧ p ≤ P
  | .finAll => False

theorem stepInst_phase_match (g : Gran) (p : ℚ) (i : Inst)
    (hg : i.spec.granularity = g) :
    (stepInst g p i).phase = maxPhase i.phase (phaseOf i.spec p) := by
  unfold stepInst
  rw [if_pos hg]
  exact advancePhase_fst _ _ _

theorem stepInst_skip (g : Gran) (p : ℚ) (i : Inst)
    (hg : ¬ i.spec.granularity = g) : stepInst g p i = i := by
  unfold stepInst
  rw [if_neg hg]

theorem instRun_phase_final (P : ℚ) (ops : List Op) (i : Inst)
    (hops : ∀ op ∈ ops, goodOp P op) :
    (instRun (ops ++ [Op.step P, Op.epoch P]) i).phase
      = maxPhase i.phase (phaseOf i.spec P) := by
  induction ops generalizing i with
  | nil =>
    show (instOp (Op.epoch P) (instOp (Op.step P) i)).phase = _
    have hspec : (instOp (Op.step P) i).spec = i.spec := instOp_spec _ _
    rcases hg : i.spec.granularity with _ | _
    · have h1 : (instOp (Op.step P) i).phase = maxPhase i.phase (phaseOf i.spec P) :=
        stepInst_phase_match .step P i hg
      have h2 : instOp (Op.epoch P) (instOp (Op.step P) i) = instOp (Op.step P) i :=
        stepInst_skip .epoch P _ (by rw [hspec, hg]; simp)
      rw [h2, h1]
    · have h1 : instOp (Op.step P) i = i := stepInst_skip .step P i (by rw [hg]; simp)
      rw [h1]
      exact stepInst_phase_match .epoch P i hg
  | cons op ops ih =>
    have hop := hops op (List.mem_cons_self op ops)
    have hops' : ∀ o ∈ ops, goodOp P o := fun o ho => hops o (List.mem_cons_of_mem op ho)
    show (instRun (ops ++ [Op.step P, Op.epoch P]) (instOp op i)).phase = _
    rw [ih (instOp op i) hops']
    rcases op with p | p | _
    · rcases hop with ⟨_, hpP⟩
      by_cases hg : i.spec.granularity = Gran.step
      · have h1 : (instOp (Op.step p) i).phase = maxPhase i.phase (phaseOf i.spec p) :=
          stepInst_phase_match .step p i hg
        have hspec : (instOp (Op.step p) i).spec = i.spec := instOp_spec _ _
        rw [hspec, h1]
        exact maxPhase_absorb (phaseOf_mono i.spec hpP)
      · have h1 : instOp (Op.step p) i = i := stepInst_skip .step p i hg
        rw [h1]
    · rcases hop with ⟨_, hpP⟩
      by_cases hg : i.spec.granularity = Gran.epoch
      · have h1 : (instOp (Op.epoch p) i).phase = maxPhase i.phase (phaseOf i.spec p) :=
          stepInst_phase_match .epoch p i hg
        have hspec : (instOp (Op.epoch p) i).spec = i.spec := instOp_spec _ _
        rw [hspec, h1]
        exact maxPhase_absorb (phaseOf_mono i.spec hpP)
      · have h1 : instOp (Op.epoch p) i = i := stepInst_skip .epoch p i hg
        rw [h1]
    · exact absurd hop (by simp [goodOp])

theorem ff_max_eq (m : ModifierSpec) (P : ℚ) (hv : validSpec m) (hP : 0 ≤ P) :
    maxPhase (ffPhase m 0) (phaseOf m P) = maxPhase (ffPhase m P) (phaseOf m P) := by
  unfold ffPhase entirelyBefore
  rcases hm : m.stop with _ | e
  · rfl
  · have hse : m.start ≤ e := hv e hm
    by_cases h0 : e ≤ 0
    · have heP : e ≤ P := le_trans h0 hP
      simp [h0, heP]
    · by_cases heP : e ≤ P
      · have hfin : phaseOf m P = .finished := by
          unfold phaseOf
          simp only [hm]
          rw [if_neg (by push_neg; linarith), if_pos heP]
        simp [h0, heP, hfin, maxPhase]
      · simp [h0, heP]

theorem topo_perm : ∀ (fuel : Nat) (rem : List ModifierSpec), (topo fuel rem).Perm rem := by
  intro fuel
  induction fuel with
  | zero => intro rem; simp [topo]
  | succ fuel ih =>
    intro rem
    unfold topo
    rcases hf : rem.find? (ready rem) with _ | m
    · simp
    · have hm : m ∈ rem := List.mem_of_find?_eq_some hf
      exact ((ih (rem.erase m)).cons m).trans (List.perm_cons_erase hm).symm

theorem loadMods_ok_insts {vars : List (String × ℚ)} {mods : List ModifierSpec}
    {p : ℚ} {s : SchedState} (h : loadMods vars mods p = .ok s) :
    findConflict mods = none ∧
    s = { insts := (topo mods.length mods).map
            (fun m => { spec := m, phase := ffPhase m p, log := ffLog m p })
          vars := vars } := by
  unfold loadMods at h
  rcases hfc : findConflict mods with _ | c
  · rw [hfc] at h
    simp only [Except.ok.injEq] at h
    exact ⟨rfl, h.symm⟩
  · rw [hfc] at h
    obtain ⟨a, b, t⟩ := c
    simp at h

/-- C1 (amended): loading at 0 and advancing through any `on_step`/`on_epoch`
calls at positions in `[0, P]` ending with calls at `P` produces exactly the
phase assignment of loading at `P` followed by its first `on_step`/`on_epoch`
calls at `P`; and immediately after `load` at `P` the Finished set already
agrees with the fresh run (it is the modifiers whose interval has ended by
`P`), while mid-interval modifiers are still Pending until that first
post-resume callback. -/
theorem C1_resume_equivalence (vars : List (String × ℚ)) (mods : List ModifierSpec)
    (P : ℚ) (s0 sP : SchedState) (ops : List Op)
    (hv : ∀ m ∈ mods, validSpec m) (hP : 0 ≤ P)
    (hops : ∀ op ∈ ops, goodOp P op)
    (h0 : loadMods vars mods 0 = .ok s0)
    (hPl : loadMods vars mods P = .ok sP) :
    ((runOps s0 (ops ++ [Op.step P, Op.epoch P])).insts.map Inst.phase
      = (runOps sP [Op.step P, Op.epoch P]).insts.map Inst.phase)
    ∧ (∀ i ∈ sP.insts, (i.phase = Phase.finished ↔ phaseOf i.spec P = Phase.finished)) := by
  obtain ⟨hfc, rfl⟩ := loadMods_ok_insts h0
  obtain ⟨_, rfl⟩ := loadMods_ok_insts hPl
  constructor
  · rw [runOps_insts, runOps_insts]
    simp only [List.map_map]
    refine List.map_congr_left ?_
    intro m hm
    have hmm : m ∈ mods := (topo_perm mods.length mods).mem_iff.mp hm
    have hvm : validSpec m := hv m hmm
    simp only [Function.comp]
    have h1 := instRun_phase_final P ops
      { spec := m, phase := ffPhase m 0, log := ffLog m 0 } hops
    have h2 := instRun_phase_final P []
      { spec := m, phase := ffPhase m P, log := ffLog m P } (by simp)
    simp only [List.nil_append] at h2
    rw [h1, h2]
    exact ff_max_eq m P hvm hP
  · intro i hi
    simp only [List.mem_map] at hi
    obtain ⟨m, hm, rfl⟩ := hi
    have hmm : m ∈ mods := (topo_perm mods.length mods).mem_iff.mp hm
    have hvm : validSpec m := hv m hmm
    show ffPhase m P = Phase.finished ↔ phaseOf m P = Phase.finished
    unfold ffPhase entirelyBefore phaseOf
    rcases hms : m.stop with _ | e <;> simp only [hms]
    · constructor
      · intro h; exact absurd h (by simp)
      · intro h
        exfalso
        by_cases h1 : P < m.start
        · rw [if_pos h1] at h; exact absurd h (by simp)
        · rw [if_neg h1] at h; exact absurd h (by simp)
    · have hse : m.start ≤ e := hvm e hms
      by_cases heP : e ≤ P
      · have hd : decide (e ≤ P) = true := by simp [heP]
        rw [if_pos hd, if_neg (not_lt.mpr (hse.trans heP)), if_pos heP]
      · have hd : ¬ (decide (e ≤ P) = true) := by simp [heP]
        rw [if_neg hd]
        constructor
        · intro h; exact absurd h (by simp)
        · intro h
          exfalso
          by_cases h1 : P < m.start
          · rw [if_pos h1] at h; exact absurd h (by simp)
          · rw [if_neg h1, if_neg heP] at h; exact absurd h (by simp)

/-- C1 counterexample: with a single modifier active on `[0, 10)` and resume
position 5, the fresh run advanced to 5 has the modifier Active while
`load` at 5 alone leaves it Pending: the two `{Active, Finished}` phase
assignments differ, refuting the claim as stated. -/
theorem C1_counterexample :
    (loadMods [] [lrLinearMod] 0).map
        (fun s => (runOps s [Op.step 5]).insts.map Inst.phase) = .ok [Phase.active]
    ∧ (loadMods [] [lrLinearMod] 5).map (fun s => s.insts.map Inst.phase)
        = .ok [Phase.pending]
    ∧ ([Phase.active] ≠ [Phase.pending]) :=
  ⟨rfl, rfl, by simp⟩

/-- C1 witness: the amended equivalence at the concrete `[0, 10)` modifier,
P = 5, with one intermediate on_step call at 3. -/
theorem C1_witness :
    ((runOps { insts := [{ spec := lrLinearMod, phase := .pending, log := [] }], vars := [] }
        ([Op.step 3] ++ [Op.step 5, Op.epoch 5])).insts.map Inst.phase
      = (runOps { insts := [{ spec := lrLinearMod, phase := .pending, log := [] }], vars := [] }
          [Op.step 5, Op.epoch 5]).insts.map Inst.phase) := by
  have h := C1_resume_equivalence [] [lrLinearMod] 5
    { insts := [{ spec := lrLinearMod, phase := .pending, log := [] }], vars := [] }
    { insts := [{ spec := lrLinearMod, phase := .pending, log := [] }], vars := [] }
    [Op.step 3]
    (by
      intro m hm
      simp only [List.mem_singleton] at hm
      subst hm
      intro e he
      simp only [lrLinearMod, Option.some.injEq] at he
      subst he
      norm_num [lrLinearMod])
    (by norm_num)
    (by intro op hop; simp at hop; subst hop; exact ⟨by norm_num, by norm_num⟩)
    rfl rfl
  exact h.1

/-! ## C2: conflicting modifiers (spec-modelled) -/

theorem sharedTarget_none_iff (a b : ModifierSpec) :
    sharedTarget a b = none ↔ ∀ t ∈ a.targets, t ∉ b.targets := by
  unfold sharedTarget
  rw [List.find?_eq_none]
  constructor
  · intro h t ht hmem
    exact absurd (by simpa using hmem) (by simpa using h t ht)
  · intro h t ht
    simpa using h t ht

theorem sharedTarget_none_symm {a b : ModifierSpec}
    (h : sharedTarget a b = none) : sharedTarget b a = none := by
  rw [sharedTarget_none_iff] at h ⊢
  intro t ht hmem
  exact h t hmem ht

theorem overlapB_symm (a b : ModifierSpec) : overlapB a b = overlapB b a := by
  unfold overlapB
  rcases a.stop with _ | ea <;> rcases b.stop with _ | eb <;>
    simp [max_comm, min_comm]

theorem hasEdge_false_of_none {a b : ModifierSpec}
    (h : sharedTarget a b = none) : hasEdge a b = false := by
  simp [hasEdge, h]

/-- The no-conflict relation between two modifiers (ordered as declared). -/
def noConf (a b : ModifierSpec) : Prop :=
  overlapB a b = true → sharedTarget a b = none

theorem noConf_symm : ∀ {a b : ModifierSpec}, noConf a b → noConf b a := by
  intro a b h hov
  exact sharedTarget_none_symm (h (by rw [overlapB_symm]; exact hov))

theorem findConflictWith_none {m : ModifierSpec} :
    ∀ {l : List ModifierSpec}, findConflictWith m l = none →
      ∀ b ∈ l, noConf m b := by
  intro l
  induction l with
  | nil => intro _ b hb; exact absurd hb (by simp)
  | cons b rest ih =>
    intro h c hc hov
    unfold findConflictWith at h
    by_cases hob : overlapB m b = true
    · rw [if_pos hob] at h
      rcases hst : sharedTarget m b with _ | t
      · rw [hst] at h
        rcases List.mem_cons.mp hc with rfl | hc'
        · exact hst
        · exact ih h c hc' hov
      · rw [hst] at h; exact absurd h (by simp)
    · rw [if_neg hob] at h
      rcases List.mem_cons.mp hc with rfl | hc'
      · exact absurd hov hob
      · exact ih h c hc' hov

theorem findConflictWith_none_of {m : ModifierSpec} :
    ∀ {l : List ModifierSpec}, (∀ b ∈ l, noConf m b) →
      findConflictWith m l = none := by
  intro l
  induction l with
  | nil => intro _; rfl
  | cons b rest ih =>
    intro h
    unfold findConflictWith
    by_cases hob : overlapB m b = true
    · rw [if_pos hob, h b (List.mem_cons_self b rest) hob]
      exact ih (fun c hc => h c (List.mem_cons_of_mem b hc))
    · rw [if_neg hob]
      exact ih (fun c hc => h c (List.mem_cons_of_mem b hc))

theorem findConflictWith_some {m : ModifierSpec} :
    ∀ {l : List ModifierSpec} {a b t},
      findConflictWith m l = some (a, b, t) →
      a = m.name ∧ ∃ mb ∈ l, b = mb.name ∧ overlapB m mb = true ∧
        sharedTarget m mb = some t := by
  intro l
  induction l with
  | nil => intro a b t h; exact absurd h (by simp [findConflictWith])
  | cons c rest ih =>
    intro a b t h
    unfold findConflictWith at h
    by_cases hoc : overlapB m c = true
    · rw [if_pos hoc] at h
      rcases hst : sharedTarget m c with _ | u
      · rw [hst] at h
        obtain ⟨ha, mb, hmb, hb, hov, hsh⟩ := ih h
        exact ⟨ha, mb, List.mem_cons_of_mem c hmb, hb, hov, hsh⟩
      · rw [hst] at h
        simp only [Option.some.injEq, Prod.mk.injEq] at h
        obtain ⟨h1, h2, h3⟩ := h
        exact ⟨h1.symm, c, List.mem_cons_self c rest, h2.symm, hoc, h3 ▸ hst⟩
    · rw [if_neg hoc] at h
      obtain ⟨ha, mb, hmb, hb, hov, hsh⟩ := ih h
      exact ⟨ha, mb, List.mem_cons_of_mem c hmb, hb, hov, hsh⟩

theorem findConflict_none_pairwise :
    ∀ {mods : List ModifierSpec}, findConflict mods = none → mods.Pairwise noConf := by
  intro mods
  induction mods with
  | nil => intro _; exact List.Pairwise.nil
  | cons m rest ih =>
    intro h
    unfold findConflict at h
    rcases hfw : findConflictWith m rest with _ | c
    · rw [hfw] at h
      exact List.Pairwise.cons (findConflictWith_none hfw) (ih h)
    · rw [hfw] at h; exact absurd h (by simp)

theorem findConflict_none_of :
    ∀ {mods : List ModifierSpec}, mods.Pairwise noConf → findConflict mods = none := by
  intro mods
  induction mods with
  | nil => intro _; rfl
  | cons m rest ih =>
    intro h
    rcases List.pairwise_cons.mp h with ⟨hm, hrest⟩
    unfold findConflict
    rw [findConflictWith_none_of hm]
    exact ih hrest

theorem findConflict_some_sound :
    ∀ {mods : List ModifierSpec} {a b t},
      findConflict mods = some (a, b, t) →
      ∃ mx my, mx ∈ mods ∧ my ∈ mods ∧ a = mx.name ∧ b = my.name ∧
        overlapB mx my = true ∧ sharedTarget mx my = some t := by
  intro mods
  induction mods with
  | nil => intro a b t h; exact absurd h (by simp [findConflict])
  | cons m rest ih =>
    intro a b t h
    unfold findConflict at h
    rcases hfw : findConflictWith m rest with _ | c
    · rw [hfw] at h
      obtain ⟨mx, my, hmx, hmy, h1, h2, h3, h4⟩ := ih h
      exact ⟨mx, my, List.mem_cons_of_mem m hmx, List.mem_cons_of_mem m hmy,
        h1, h2, h3, h4⟩
    · rw [hfw] at h
      simp only [Option.some.injEq] at h
      subst h
      obtain ⟨ha, mb, hmb, hb, hov, hsh⟩ := findConflictWith_some hfw
      exact ⟨m, mb, List.mem_cons_self m rest, List.mem_cons_of_mem m hmb,
        ha, hb, hov, hsh⟩

theorem topo_no_edges :
    ∀ (rem : List ModifierSpec),
      rem.Pairwise (fun a b => sharedTarget a b = none) →
      topo rem.length rem = rem := by
  intro rem
  induction rem with
  | nil => intro _; rfl
  | cons h t ih =>
    intro hp
    rcases List.pairwise_cons.mp hp with ⟨hh, ht⟩
    have hready : ready (h :: t) h = true := by
      unfold ready
      rw [List.all_eq_true]
      intro r hr
      rcases List.mem_cons.mp hr with rfl | hr'
      · simp
      · have : sharedTarget r h = none := sharedTarget_none_symm (hh r hr')
        simp [hasEdge_false_of_none this]
    show topo (t.length + 1) (h :: t) = h :: t
    unfold topo
    rw [List.find?_cons_of_pos _ hready]
    show h :: topo t.length ((h :: t).erase h) = h :: t
    rw [List.erase_cons_head, ih ht]

/-- C2: (i) a recipe containing two distinct modifiers with overlapping
intervals and a shared target fails `load` with `ConflictingModifierError`
naming two genuinely conflicting modifiers and their shared target; (ii) a
recipe whose overlapping modifiers all have disjoint targets loads
successfully; (iii) when every pair of modifiers has disjoint target sets
(so the dependency graph has no edges) the loaded execution order is exactly
the declaration order. -/
theorem C2_conflict_handling (vars : List (String × ℚ)) (mods : List ModifierSpec)
    (p : ℚ) :
    ((∀ (ma mb : ModifierSpec) (t : String), ma ∈ mods → mb ∈ mods → ma ≠ mb →
        overlapB ma mb = true → sharedTarget ma mb = some t →
        ∃ a b u, loadMods vars mods p = .error (.conflictingModifier a b u) ∧
          ∃ mx my, mx ∈ mods ∧ my ∈ mods ∧ a = mx.name ∧ b = my.name ∧
            overlapB mx my = true ∧ sharedTarget mx my = some u)
    ∧ (mods.Pairwise noConf → ∃ s, loadMods vars mods p = .ok s)
    ∧ (mods.Pairwise (fun a b => sharedTarget a b = none) →
        ∃ s, loadMods vars mods p = .ok s ∧ s.insts.map Inst.spec = mods)) := by
  refine ⟨?_, ?_, ?_⟩
  · intro ma mb t hma hmb hne hov hsh
    rcases hfc : findConflict mods with _ | c
    · exfalso
      have hpw := findConflict_none_pairwise hfc
      have := (hpw.forall (fun a b => noConf_symm)) hma hmb hne
      rw [this hov] at hsh
      exact absurd hsh (by simp)
    · obtain ⟨a, b, u⟩ := c
      refine ⟨a, b, u, ?_, findConflict_some_sound hfc⟩
      unfold loadMods
      rw [hfc]
  · intro hpw
    have hfc := findConflict_none_of hpw
    unfold loadMods
    rw [hfc]
    exact ⟨_, rfl⟩
  · intro hpw
    have hpw' : mods.Pairwise noConf := by
      refine hpw.imp ?_
      intro a b h
      exact fun _ => h
    have hfc := findConflict_none_of hpw'
    unfold loadMods
    rw [hfc]
    refine ⟨_, rfl, ?_⟩
    simp only [List.map_map]
    rw [show topo mods.length mods = mods from topo_no_edges mods hpw]
    exact (List.map_congr_left (fun a _ => rfl)).trans (List.map_id mods)

/-- Modifier A of the C2 counterexample: target t on `[10, 20)`. -/
def cexA : ModifierSpec :=
  { name := "A", tag := "tag", stage := "s", start := 10, stop := some 20
    targets := ["t"], params := [], granularity := Gran.step }

/-- Modifier C of the C2 counterexample: target u on `[0, 30)`. -/
def cexC : ModifierSpec :=
  { name := "C", tag := "tag", stage := "s", start := 0, stop := some 30
    targets := ["u"], params := [], granularity := Gran.step }

/-- Modifier D of the C2 counterexample: target t on `[0, 5)`. -/
def cexD : ModifierSpec :=
  { name := "D", tag := "tag", stage := "s", start := 0, stop := some 5
    targets := ["t"], params := [], granularity := Gran.step }

/-- C2 counterexample: in the recipe `[A, C, D]` every pair of modifiers with
overlapping intervals has disjoint targets, and `load` succeeds — but the
dependency edge from `D` to `A` (same target `t`, `D`'s interval before
`A`'s) forces the resolved order `C, D, A`, so the overlapping
disjoint-target pair `A, C` does not execute in declaration order, refuting
the declaration-order conjunct of the claim as stated. -/
theorem C2_counterexample :
    (noConf cexA cexC ∧ noConf cexA cexD ∧ noConf cexC cexD)
    ∧ (loadMods [] [cexA, cexC, cexD] 0).map
        (fun s => s.insts.map (fun i => i.spec.name)) = .ok ["C", "D", "A"]
    ∧ (["C", "D", "A"] ≠ ["A", "C", "D"]) := by
  refine ⟨⟨fun _ => rfl, fun h => ?_, fun _ => rfl⟩, rfl, by simp⟩
  exact absurd h (by intro hh; exact Bool.noConfusion hh)

/-- First witness modifier: target a on `[0, 10)`. -/
def mW1 : ModifierSpec :=
  { name := "w1", tag := "tag", stage := "s", start := 0, stop := some 10
    targets := ["a"], params := [], granularity := Gran.step }

/-- Second witness modifier: target b on `[5, 15)`, overlapping mW1. -/
def mW2 : ModifierSpec :=
  { name := "w2", tag := "tag", stage := "s", start := 5, stop := some 15
    targets := ["b"], params := [], granularity := Gran.step }

/-- Third witness modifier: also target a on `[0, 10)`, conflicting
with mW1. -/
def mW3 : ModifierSpec :=
  { name := "w3", tag := "tag", stage := "s", start := 0, stop := some 10
    targets := ["a"], params := [], granularity := Gran.step }

/-- C2 witness: the conflict branch on a same-target overlapping pair and
the declaration-order branch on a disjoint-target overlapping pair. -/
theorem C2_witness :
    (∃ a b u, loadMods [] [mW1, mW3] 0 = .error (.conflictingModifier a b u) ∧
      ∃ mx my, mx ∈ [mW1, mW3] ∧ my ∈ [mW1, mW3] ∧ a = mx.name ∧ b = my.name ∧
        overlapB mx my = true ∧ sharedTarget mx my = some u)
    ∧ (∃ s, loadMods [] [mW1, mW2] 0 = .ok s ∧ s.insts.map Inst.spec = [mW1, mW2]) := by
  constructor
  · exact (C2_conflict_handling [] [mW1, mW3] 0).1 mW1 mW3 "a"
      (by simp) (by simp) (by intro h; simp [mW1, mW3] at h) rfl rfl
  · exact (C2_conflict_handling [] [mW1, mW2] 0).2.2
      (by
        refine List.Pairwise.cons ?_ (List.pairwise_singleton _ _)
        intro b hb
        simp only [List.mem_singleton] at hb
        subst hb
        rfl)

/-! ## C8: unknown modifier type tag (spec-modelled) -/

theorem checkTags_some_of_ex {reg : Registry} :
    ∀ {stages : List RecStage},
      (∃ st ∈ stages, ∃ m ∈ st.mods, reg.lookup m.tag = none) →
      ∃ tag sname, checkTags reg stages = some (tag, sname) ∧
        reg.lookup tag = none ∧
        ∃ st ∈ stages, st.sname = sname ∧ ∃ m ∈ st.mods, m.tag = tag := by
  intro stages
  induction stages with
  | nil => intro h; obtain ⟨st, hst, _⟩ := h; exact absurd hst (by simp)
  | cons st rest ih =>
    intro h
    unfold checkTags
    rcases hf : st.mods.find? (fun m => (reg.lookup m.tag).isNone) with _ | m <;>
      simp only [hf]
    · obtain ⟨st', hst', m', hm', hlk⟩ := h
      rcases List.mem_cons.mp hst' with rfl | hst''
      · exfalso
        have := List.find?_eq_none.mp hf m' hm'
        simp [hlk] at this
      · obtain ⟨tag, sname, hct, hnone, st'', hst3, hs, m'', hm3, ht⟩ :=
          ih ⟨st', hst'', m', hm', hlk⟩
        exact ⟨tag, sname, hct, hnone, st'', List.mem_cons_of_mem st hst3,
          hs, m'', hm3, ht⟩
    · have hm : m ∈ st.mods := List.mem_of_find?_eq_some hf
      have hnone : reg.lookup m.tag = none := by
        have := List.find?_some hf
        simpa [Option.isNone_iff_eq_none] using this
      exact ⟨m.tag, st.sname, rfl, hnone, st, List.mem_cons_self st rest,
        rfl, m, hm, rfl⟩

/-- C8: a recipe containing an unknown modifier type tag fails `load`
atomically with the unknown-modifier-type parse error, which names the tag
and its stage; no scheduler state is produced.  (The spec's
`RecipeParseError` of sections 7/8 and the `UnknownModifierTypeError` of
section 4.2 are the same failure, modelled as the
`LoadErr.unknownModifierType` case of the load-time error taxonomy.) -/
theorem C8_unknown_tag (reg : Registry) (ov : List (String × ℚ))
    (rt : RecipeText) (p : ℚ)
    (hex : ∃ st ∈ rt.stages, ∃ m ∈ st.mods, reg.lookup m.tag = none) :
    ∃ tag sname, loadText reg ov rt p = .error (.unknownModifierType tag sname) ∧
      reg.lookup tag = none ∧
      (∃ st ∈ rt.stages, st.sname = sname ∧ ∃ m ∈ st.mods, m.tag = tag) ∧
      ∀ r, loadText reg ov rt p ≠ .ok r := by
  obtain ⟨tag, sname, hct, hnone, hwit⟩ := checkTags_some_of_ex hex
  refine ⟨tag, sname, ?_, hnone, hwit, ?_⟩
  · unfold loadText parseRecipe
    rw [hct]
  · intro r hr
    unfold loadText parseRecipe at hr
    rw [hct] at hr
    exact absurd hr (by simp)

/-- Recipe text with a bogus modifier tag used for the C8 witness. -/
def rtBogus : RecipeText :=
  { vars := [("num_epochs", Expr.num 10)]
    stages := [{ sname := "training"
                 mods := [{ tag := "BogusModifier", name := "b", startE := Expr.num 0
                            stopE := none, targets := [], params := [] }] }] }

/-- The registry of modifier type tags appearing in the notebook's transfer
recipe. -/
def notebookRegistry : Registry :=
  [("EpochRangeModifier", Gran.epoch),
   ("LearningRateFunctionModifier", Gran.step),
   ("QuantizationModifier", Gran.epoch),
   ("DistillationModifier", Gran.step),
   ("ConstantPruningModifier", Gran.epoch)]

/-- C8 witness: the unknown-tag failure at the concrete bogus recipe. -/
theorem C8_witness :
    ∃ tag sname,
      loadText notebookRegistry [] rtBogus 0 = .error (.unknownModifierType tag sname) ∧
      notebookRegistry.lookup tag = none ∧
      (∃ st ∈ rtBogus.stages, st.sname = sname ∧ ∃ m ∈ st.mods, m.tag = tag) ∧
      ∀ r, loadText notebookRegistry [] rtBogus 0 ≠ .ok r :=
  C8_unknown_tag notebookRegistry [] rtBogus 0
    ⟨{ sname := "training"
       mods := [{ tag := "BogusModifier", name := "b", startE := Expr.num 0
                  stopE := none, targets := [], params := [] }] },
     by simp [rtBogus],
     { tag := "BogusModifier", name := "b", startE := Expr.num 0
       stopE := none, targets := [], params := [] },
     by simp, rfl⟩

/-! ## C6: recipe_args overrides (spec-modelled) -/

theorem applyOverrides_fst_keys (ov : List (String × ℚ)) (vars : List (String × Expr)) :
    ((applyOverrides ov vars).1).map Prod.fst = vars.map Prod.fst := by
  unfold applyOverrides
  rw [List.map_map]
  refine List.map_congr_left ?_
  intro kv _
  simp only [Function.comp]
  rcases h : ov.lookup kv.1 with _ | q <;> simp [h]

theorem applyOverrides_mem {ov : List (String × ℚ)} {vars : List (String × Expr)}
    {n : String} {e0 : Expr} {q : ℚ} (hmem : (n, e0) ∈ vars)
    (hlk : ov.lookup n = some q) :
    (n, Expr.num q) ∈ (applyOverrides ov vars).1 := by
  unfold applyOverrides
  have h := List.mem_map_of_mem
    (fun kv : String × Expr =>
      match ov.lookup kv.1 with
      | some q => (kv.1, Expr.num q)
      | none => kv) hmem
  simpa [hlk] using h

theorem varFuel_pos (tbl : List (String × Expr)) : 0 < varFuel tbl :=
  Nat.mul_pos (Nat.succ_pos _) (Nat.succ_pos _)

theorem resolveExprFuel_num {tbl : List (String × Expr)} {fuel : Nat}
    (hf : 0 < fuel) (vis : List String) (q : ℚ) :
    resolveExprFuel tbl fuel vis (.num q) = .ok q := by
  cases fuel with
  | zero => exact absurd hf (by simp)
  | succ fuel => rfl

theorem resolvePairs_keys {tbl : List (String × Expr)} :
    ∀ {l : List (String × Expr)} {out : List (String × ℚ)},
      resolvePairs tbl l = .ok out → out.map Prod.fst = l.map Prod.fst := by
  intro l
  induction l with
  | nil => intro out h; simp [resolvePairs] at h; subst h; rfl
  | cons kv rest ih =>
    intro out h
    obtain ⟨n, e⟩ := kv
    unfold resolvePairs at h
    rcases hr : resolveExprFuel tbl (varFuel tbl) [n] e with err | q <;> rw [hr] at h
    · exact absurd h (by simp)
    · rcases ht : resolvePairs tbl rest with err | tail <;> rw [ht] at h
      · exact absurd h (by simp)
      · simp only [Except.ok.injEq] at h
        subst h
        simp [ih ht]

theorem resolvePairs_mem_num {tbl : List (String × Expr)} {n : String} {q : ℚ} :
    ∀ {l : List (String × Expr)} {out : List (String × ℚ)},
      (n, Expr.num q) ∈ l → resolvePairs tbl l = .ok out → (n, q) ∈ out := by
  intro l
  induction l with
  | nil => intro out h; exact absurd h (by simp)
  | cons kv rest ih =>
    intro out hmem h
    obtain ⟨n', e'⟩ := kv
    unfold resolvePairs at h
    rcases hr : resolveExprFuel tbl (varFuel tbl) [n'] e' with err | q' <;> rw [hr] at h
    · exact absurd h (by simp)
    · rcases ht : resolvePairs tbl rest with err | tail <;> rw [ht] at h
      · exact absurd h (by simp)
      · simp only [Except.ok.injEq] at h
        subst h
        rcases List.mem_cons.mp hmem with heq | hmem'
        · injection heq with h1 h2
          subst h1
          subst h2
          have hnum : resolveExprFuel tbl (varFuel tbl) [n] (Expr.num q) = .ok q :=
            resolveExprFuel_num (varFuel_pos tbl) _ q
          rw [hnum] at hr
          injection hr with hq
          exact hq ▸ List.mem_cons_self _ _
        · exact List.mem_cons_of_mem _ (ih hmem' ht)

theorem lookup_eq_of_mem_nodup {α β : Type} [DecidableEq α] :
    ∀ {l : List (α × β)} {k : α} {v : β},
      (k, v) ∈ l → (l.map Prod.fst).Nodup → l.lookup k = some v := by
  intro l
  induction l with
  | nil => intro k v h; exact absurd h (by simp)
  | cons kv rest ih =>
    intro k v hmem hnd
    obtain ⟨k', v'⟩ := kv
    have hnd' : k' ∉ rest.map Prod.fst ∧ (rest.map Prod.fst).Nodup := by
      rw [List.map_cons, List.nodup_cons] at hnd
      exact hnd
    rcases List.mem_cons.mp hmem with heq | hmem'
    · injection heq with h1 h2
      subst h1; subst h2
      simp [List.lookup]
    · have hk : k ≠ k' := by
        intro hkk
        subst hkk
        exact hnd'.1 (List.mem_map_of_mem Prod.fst hmem')
      have hb : (k == k') = false := beq_eq_false_iff_ne.mpr hk
      simp only [List.lookup, hb]
      exact ih hmem' hnd'.2

theorem resolveAll_lookup_num {l : List (String × Expr)} {n : String} {q : ℚ}
    {env : List (String × ℚ)}
    (hmem : (n, Expr.num q) ∈ l) (hnd : (l.map Prod.fst).Nodup)
    (h : resolveAll l = .ok env) : env.lookup n = some q := by
  unfold resolveAll at h
  have hmem' : (n, Expr.num q) ∈ sortVars l :=
    (List.perm_insertionSort keyLE l).mem_iff.mpr hmem
  have hout : (n, q) ∈ env := resolvePairs_mem_num hmem' h
  have hkeys : env.map Prod.fst = (sortVars l).map Prod.fst := resolvePairs_keys h
  have hnd' : ((sortVars l).map Prod.fst).Nodup :=
    ((List.perm_insertionSort keyLE l).map Prod.fst).nodup_iff.mpr hnd
  exact lookup_eq_of_mem_nodup hout (hkeys ▸ hnd')

theorem buildStageMods_mem_forward {reg : Registry} {env : List (String × ℚ)}
    {sname : String} :
    ∀ {l : List RawModifier} {ms : List ModifierSpec},
      buildStageMods reg env sname l = .ok ms →
      ∀ rm ∈ l, ∃ spec ∈ ms, buildMod reg env sname rm = .ok spec := by
  intro l
  induction l with
  | nil => intro ms _ rm hrm; exact absurd hrm (by simp)
  | cons m rest ih =>
    intro ms h rm hrm
    unfold buildStageMods at h
    rcases hb : buildMod reg env sname m with err | spec <;> rw [hb] at h
    · exact absurd h (by simp)
    · rcases ht : buildStageMods reg env sname rest with err | tail <;> rw [ht] at h
      · exact absurd h (by simp)
      · simp only [Except.ok.injEq] at h
        subst h
        rcases List.mem_cons.mp hrm with rfl | hrm'
        · exact ⟨spec, List.mem_cons_self _ _, hb⟩
        · obtain ⟨spec', hs', hb'⟩ := ih ht rm hrm'
          exact ⟨spec', List.mem_cons_of_mem _ hs', hb'⟩

theorem buildStages_mem_forward {reg : Registry} {env : List (String × ℚ)} :
    ∀ {stages : List RecStage} {mods : List ModifierSpec},
      buildStages reg env stages = .ok mods →
      ∀ st ∈ stages, ∀ rm ∈ st.mods,
        ∃ spec ∈ mods, buildMod reg env st.sname rm = .ok spec := by
  intro stages
  induction stages with
  | nil => intro mods _ st hst; exact absurd hst (by simp)
  | cons st' rest ih =>
    intro mods h st hst rm hrm
    unfold buildStages at h
    rcases hb : buildStageMods reg env st'.sname st'.mods with err | ms <;> rw [hb] at h
    · exact absurd h (by simp)
    · rcases ht : buildStages reg env rest with err | tail <;> rw [ht] at h
      · exact absurd h (by simp)
      · simp only [Except.ok.injEq] at h
        subst h
        rcases List.mem_cons.mp hst with rfl | hst'
        · obtain ⟨spec, hs, hbm⟩ := buildStageMods_mem_forward hb rm hrm
          exact ⟨spec, List.mem_append_left _ hs, hbm⟩
        · obtain ⟨spec, hs, hbm⟩ := ih ht st hst' rm hrm
          exact ⟨spec, List.mem_append_right _ hs, hbm⟩

theorem buildMod_var_stop {reg : Registry} {env : List (String × ℚ)}
    {sname n : String} {q : ℚ} {rm : RawModifier} {spec : ModifierSpec}
    (h : buildMod reg env sname rm = .ok spec)
    (hstop : rm.stopE = some (Expr.var n)) (hlk : env.lookup n = some q) :
    spec.name = rm.name ∧ spec.stop = some q := by
  unfold buildMod at h
  rcases hs : evalExpr env rm.startE with err | s <;> simp only [hs] at h
  · exact absurd h (by simp)
  · have hev : evalStop env rm.stopE = .ok (some q) := by
      rw [hstop]
      simp [evalStop, evalExpr, hlk]
    simp only [hev] at h
    rcases hp : evalParams env rm.params with err | ps <;> simp only [hp] at h
    · exact absurd h (by simp)
    · rcases hv : validBounds s (some q) with _ | _
      · simp [hv] at h
      · simp only [hv, eq_self_iff_true, if_true, Except.ok.injEq] at h
        subst h
        exact ⟨rfl, rfl⟩

theorem parseRecipe_ok_inv {reg : Registry} {ov : List (String × ℚ)}
    {rt : RecipeText} {mods : List ModifierSpec} {env : List (String × ℚ)}
    {w : List String} (h : parseRecipe reg ov rt = .ok (mods, env, w)) :
    checkTags reg rt.stages = none ∧
    resolveAll (applyOverrides ov rt.vars).1 = .ok env ∧
    buildStages reg env rt.stages = .ok mods ∧
    w = (applyOverrides ov rt.vars).2 := by
  unfold parseRecipe at h
  rcases hct : checkTags reg rt.stages with _ | c <;> simp only [hct] at h
  · rcases hra : resolveAll (applyOverrides ov rt.vars).1 with err | env' <;>
      simp only [hra] at h
    · exact absurd h (by simp)
    · rcases hbs : buildStages reg env' rt.stages with err | mods' <;>
        simp only [hbs] at h
      · exact absurd h (by simp)
      · simp only [Except.ok.injEq, Prod.mk.injEq] at h
        obtain ⟨h1, h2, h3⟩ := h
        subst h1
        subst h2
        subst h3
        exact ⟨rfl, rfl, hbs, rfl⟩
  · obtain ⟨tag, sname⟩ := c
    exact absurd h (by simp)

theorem applyOverrides_nil (vars : List (String × Expr)) :
    applyOverrides [] vars = (vars, []) := by
  unfold applyOverrides
  refine Prod.ext ?_ rfl
  simp only
  exact (List.map_congr_left (fun kv _ => rfl)).trans (List.map_id vars)

theorem applyOverrides_single_unknown {vars : List (String × Expr)}
    {k : String} {q : ℚ} (hk : k ∉ vars.map Prod.fst) :
    applyOverrides [(k, q)] vars = (vars, [k]) := by
  unfold applyOverrides
  refine Prod.ext ?_ ?_
  · simp only
    refine (List.map_congr_left ?_).trans (List.map_id vars)
    intro kv hkv
    have hne : kv.1 ≠ k := by
      intro hkk
      exact hk (hkk ▸ List.mem_map_of_mem Prod.fst hkv)
    have : (kv.1 == k) = false := beq_eq_false_iff_ne.mpr hne
    simp [List.lookup, this]
  · simp [hk]

/-- C6: recipe_args overrides are applied before variable resolution: an
override of variable `n` by `q` makes the resolved environment map `n` to
`q`, and any modifier whose raw end bound is the formula `eval(n)` resolves
its end to `q` (rather than the recipe's literal default); an override key
naming a variable absent from the recipe leaves the load result unchanged
and is reported as a warning, not a failure. -/
theorem C6_overrides :
    (∀ (reg : Registry) (ov : List (String × ℚ)) (rt : RecipeText)
        (n : String) (e0 : Expr) (q : ℚ) (mods : List ModifierSpec)
        (env : List (String × ℚ)) (w : List String),
        (rt.vars.map Prod.fst).Nodup → (n, e0) ∈ rt.vars → ov.lookup n = some q →
        parseRecipe reg ov rt = .ok (mods, env, w) →
        env.lookup n = some q ∧
        ∀ st ∈ rt.stages, ∀ rm ∈ st.mods, rm.stopE = some (Expr.var n) →
          ∃ spec ∈ mods, spec.name = rm.name ∧ spec.stop = some q)
    ∧ (∀ (reg : Registry) (rt : RecipeText) (p : ℚ) (k : String) (q : ℚ)
        (s : SchedState) (w : List String),
        k ∉ rt.vars.map Prod.fst → loadText reg [] rt p = .ok (s, w) →
        w = [] ∧ loadText reg [(k, q)] rt p = .ok (s, [k])) := by
  constructor
  · intro reg ov rt n e0 q mods env w hnd hmem hlk hp
    obtain ⟨_, hra, hbs, _⟩ := parseRecipe_ok_inv hp
    have henv : env.lookup n = some q := by
      refine resolveAll_lookup_num (applyOverrides_mem hmem hlk) ?_ hra
      rw [applyOverrides_fst_keys]
      exact hnd
    refine ⟨henv, ?_⟩
    intro st hst rm hrm hstop
    obtain ⟨spec, hs, hbm⟩ := buildStages_mem_forward hbs st hst rm hrm
    obtain ⟨h1, h2⟩ := buildMod_var_stop hbm hstop henv
    exact ⟨spec, hs, h1, h2⟩
  · intro reg rt p k q s w hk h
    have hsingle :
        applyOverrides [(k, q)] rt.vars = (rt.vars, [k]) :=
      applyOverrides_single_unknown hk
    simp only [loadText, parseRecipe, applyOverrides_nil] at h
    rcases hct : checkTags reg rt.stages with _ | c <;> simp only [hct] at h
    · rcases hra : resolveAll rt.vars with err | env <;> simp only [hra] at h
      · exact absurd h (by simp)
      · rcases hbs : buildStages reg env rt.stages with err | mods <;>
          simp only [hbs] at h
        · exact absurd h (by simp)
        · rcases hlm : loadMods env mods p with err | s' <;> simp only [hlm] at h
          · exact absurd h (by simp)
          · simp only [Except.ok.injEq, Prod.mk.injEq] at h
            obtain ⟨h1, h2⟩ := h
            subst h1
            refine ⟨h2.symm, ?_⟩
            simp only [loadText, parseRecipe, hsingle, hct, hra, hbs, hlm]
    · obtain ⟨tag, sname⟩ := c
      exact absurd h (by simp)

/-- A trimmed version of the notebook's transfer recipe
(src/unnamed/part_001, markdown cell around lines 402-454): the
`num_epochs`/`init_lr`/`final_lr` variables, the `EpochRangeModifier` and
the linear `LearningRateFunctionModifier`, both ending at
`eval(num_epochs)`. -/
def transferRecipe : RecipeText :=
  { vars := [("num_epochs", Expr.num 13), ("init_lr", Expr.num (mkRat 3 20000)),
             ("final_lr", Expr.num 0)]
    stages := [{ sname := "training_modifiers"
                 mods := [{ tag := "EpochRangeModifier", name := "epoch_range"
                            startE := Expr.num 0
                            stopE := some (Expr.var "num_epochs")
                            targets := [], params := [] },
                          { tag := "LearningRateFunctionModifier", name := "lr_func"
                            startE := Expr.num 0
                            stopE := some (Expr.var "num_epochs")
                            targets := ["lr"]
                            params := [("init_lr", Expr.var "init_lr"),
                                       ("final_lr", Expr.var "final_lr")] }] }] }

/-- Resolved modifiers of `transferRecipe` under the override
`num_epochs = 20`. -/
def c6mods : List ModifierSpec :=
  [{ name := "epoch_range", tag := "EpochRangeModifier", stage := "training_modifiers"
     start := 0, stop := some 20, targets := [], params := []
     granularity := Gran.epoch },
   { name := "lr_func", tag := "LearningRateFunctionModifier"
     stage := "training_modifiers", start := 0, stop := some 20, targets := ["lr"]
     params := [("init_lr", mkRat 3 20000), ("final_lr", 0)], granularity := Gran.step }]

/-- Resolved variables of `transferRecipe` under the override
`num_epochs = 20` (sorted by name). -/
def c6env : List (String × ℚ) :=
  [("final_lr", 0), ("init_lr", mkRat 3 20000), ("num_epochs", 20)]

/-- Scheduler state loaded from `transferRecipe` without overrides at
position 0. -/
def c6state : SchedState :=
  { insts := [{ spec := { name := "epoch_range", tag := "EpochRangeModifier"
                          stage := "training_modifiers", start := 0, stop := some 13
                          targets := [], params := [], granularity := Gran.epoch }
                phase := .pending, log := [] },
              { spec := { name := "lr_func", tag := "LearningRateFunctionModifier"
                          stage := "training_modifiers", start := 0, stop := some 13
                          targets := ["lr"]
                          params := [("init_lr", mkRat 3 20000), ("final_lr", 0)]
                          granularity := Gran.step }
                phase := .pending, log := [] }]
    vars := [("final_lr", 0), ("init_lr", mkRat 3 20000), ("num_epochs", 13)] }

/-- The raw EpochRangeModifier block of `transferRecipe`. -/
def c6rawEpochRange : RawModifier :=
  { tag := "EpochRangeModifier", name := "epoch_range", startE := Expr.num 0
    stopE := some (Expr.var "num_epochs"), targets := [], params := [] }

/-- C6 witness: overriding `num_epochs = 20` on the notebook transfer recipe
resolves the EpochRangeModifier's end to 20 (not the literal default 13),
and an override naming an absent variable warns instead of failing. -/
theorem C6_witness :
    (parseRecipe notebookRegistry [("num_epochs", 20)] transferRecipe
      = .ok (c6mods, c6env, []))
    ∧ c6env.lookup "num_epochs" = some 20
    ∧ (∃ spec ∈ c6mods, spec.name = "epoch_range" ∧ spec.stop = some 20)
    ∧ loadText notebookRegistry [("bogus_var", 1)] transferRecipe 0
        = .ok (c6state, ["bogus_var"]) := by
  have h := C6_overrides.1 notebookRegistry [("num_epochs", 20)] transferRecipe
    "num_epochs" (Expr.num 13) 20 c6mods c6env []
    (by simp [transferRecipe]) (by simp [transferRecipe]) rfl rfl
  obtain ⟨h1, h2⟩ := h
  refine ⟨rfl, h1, ?_, ?_⟩
  · exact h2 { sname := "training_modifiers"
               mods := [c6rawEpochRange,
                        { tag := "LearningRateFunctionModifier", name := "lr_func"
                          startE := Expr.num 0
                          stopE := some (Expr.var "num_epochs")
                          targets := ["lr"]
                          params := [("init_lr", Expr.var "init_lr"),
                                     ("final_lr", Expr.var "final_lr")] }] }
      (by simp [transferRecipe, c6rawEpochRange]) c6rawEpochRange (by simp) rfl
  · exact (C6_overrides.2 notebookRegistry transferRecipe 0 "bogus_var" 1 c6state []
      (by simp [transferRecipe]) rfl).2

/-! ## C5: serializer round trip (spec-modelled) -/

theorem resolvePairs_all_num {tbl : List (String × Expr)} :
    ∀ {l : List (String × Expr)}, (∀ kv ∈ l, ∃ q, kv.2 = Expr.num q) →
      ∃ out, resolvePairs tbl l = .ok out := by
  intro l
  induction l with
  | nil => intro _; exact ⟨[], rfl⟩
  | cons kv rest ih =>
    intro h
    obtain ⟨n, e⟩ := kv
    obtain ⟨q, hq⟩ := h (n, e) (List.mem_cons_self _ _)
    simp only at hq
    subst hq
    obtain ⟨tail, htail⟩ := ih (fun kv hkv => h kv (List.mem_cons_of_mem _ hkv))
    refine ⟨(n, q) :: tail, ?_⟩
    unfold resolvePairs
    rw [resolveExprFuel_num (varFuel_pos tbl) _ q, htail]

theorem resolveAll_lits (l : List (String × ℚ)) :
    ∃ env1, resolveAll (l.map (fun kv => (kv.1, Expr.num kv.2))) = .ok env1 := by
  unfold resolveAll
  apply resolvePairs_all_num
  intro kv hkv
  have hmem : kv ∈ l.map (fun kv => (kv.1, Expr.num kv.2)) :=
    (List.perm_insertionSort keyLE _).mem_iff.mp hkv
  obtain ⟨kv', _, hkv'⟩ := List.mem_map.mp hmem
  exact ⟨kv'.2, by rw [← hkv']⟩

theorem checkTags_serialized (reg : Registry) :
    ∀ (insts : List Inst),
      (∀ i ∈ insts, (reg.lookup i.spec.tag).isSome = true) →
      checkTags reg
          (insts.map (fun i => { sname := i.spec.stage, mods := [rawOf i.spec] }))
        = none := by
  intro insts
  induction insts with
  | nil => intro _; rfl
  | cons i rest ih =>
    intro h
    have hi := h i (List.mem_cons_self _ _)
    show checkTags reg ({ sname := i.spec.stage, mods := [rawOf i.spec] } ::
      rest.map (fun i => { sname := i.spec.stage, mods := [rawOf i.spec] })) = none
    unfold checkTags
    have hfind : ([rawOf i.spec].find? (fun m => (reg.lookup m.tag).isNone)) = none := by
      rw [List.find?_eq_none]
      intro x hx
      simp only [List.mem_singleton] at hx
      subst hx
      simp only [rawOf]
      rcases hc : reg.lookup i.spec.tag with _ | g
      · rw [hc] at hi
        exact absurd hi (by simp)
      · simp [hc]
    rw [hfind]
    exact ih (fun j hj => h j (List.mem_cons_of_mem _ hj))

theorem evalStop_lits (env : List (String × ℚ)) :
    ∀ e? : Option ℚ, evalStop env (e?.map Expr.num) = .ok e? := by
  intro e?
  rcases e? with _ | e <;> rfl

theorem evalParams_lits (env : List (String × ℚ)) :
    ∀ ps : List (String × ℚ),
      evalParams env (ps.map (fun kv => (kv.1, Expr.num kv.2))) = .ok ps := by
  intro ps
  induction ps with
  | nil => rfl
  | cons kv rest ih =>
    show evalParams env ((kv.1, Expr.num kv.2) :: _) = _
    unfold evalParams
    rw [show evalExpr env (Expr.num kv.2) = .ok kv.2 from rfl, ih]

theorem buildMod_roundtrip (reg : Registry) (env : List (String × ℚ))
    (spec : ModifierSpec)
    (hv : validBounds spec.start spec.stop = true)
    (hg : spec.granularity = (reg.lookup spec.tag).getD .epoch) :
    buildMod reg env spec.stage (rawOf spec) = .ok spec := by
  unfold buildMod
  have h1 : evalExpr env (rawOf spec).startE = .ok spec.start := rfl
  have h2 : evalStop env (rawOf spec).stopE = .ok spec.stop := evalStop_lits env _
  have h3 : evalParams env (rawOf spec).params = .ok spec.params := evalParams_lits env _
  simp only [h1, h2, h3, hv, if_true]
  show Except.ok _ = _
  refine congrArg Except.ok ?_
  obtain ⟨name, tag, stage, start, stop, targets, params, granularity⟩ := spec
  simp only [rawOf] at hg ⊢
  rw [hg]

theorem buildStages_serialized (reg : Registry) (env : List (String × ℚ)) :
    ∀ insts : List Inst,
      (∀ i ∈ insts, validBounds i.spec.start i.spec.stop = true ∧
          i.spec.granularity = (reg.lookup i.spec.tag).getD .epoch) →
      buildStages reg env
          (insts.map (fun i => { sname := i.spec.stage, mods := [rawOf i.spec] }))
        = .ok (insts.map Inst.spec) := by
  intro insts
  induction insts with
  | nil => intro _; rfl
  | cons i rest ih =>
    intro h
    obtain ⟨hv, hg⟩ := h i (List.mem_cons_self _ _)
    show buildStages reg env ({ sname := i.spec.stage, mods := [rawOf i.spec] } :: _) = _
    unfold buildStages
    have hsm : buildStageMods reg env i.spec.stage [rawOf i.spec] = .ok [i.spec] := by
      unfold buildStageMods
      rw [buildMod_roundtrip reg env i.spec hv hg]
      rfl
    rw [hsm, ih (fun j hj => h j (List.mem_cons_of_mem _ hj))]
    rfl

theorem checkTags_none_forall {reg : Registry} :
    ∀ {stages : List RecStage}, checkTags reg stages = none →
      ∀ st ∈ stages, ∀ m ∈ st.mods, (reg.lookup m.tag).isSome = true := by
  intro stages
  induction stages with
  | nil => intro _ st hst; exact absurd hst (by simp)
  | cons st' rest ih =>
    intro h st hst m hm
    unfold checkTags at h
    rcases hf : st'.mods.find? (fun m => (reg.lookup m.tag).isNone) with _ | m' <;>
      rw [hf] at h
    · rcases List.mem_cons.mp hst with rfl | hst'
      · have hnm := List.find?_eq_none.mp hf m hm
        rcases hc : reg.lookup m.tag with _ | g
        · exfalso
          rw [hc] at hnm
          exact hnm rfl
        · rfl
      · exact ih h st hst' m hm
    · exact absurd h (by simp)

theorem buildMod_ok_post {reg : Registry} {env : List (String × ℚ)}
    {sname : String} {rm : RawModifier} {spec : ModifierSpec}
    (h : buildMod reg env sname rm = .ok spec) :
    spec.tag = rm.tag ∧ validBounds spec.start spec.stop = true ∧
    spec.granularity = (reg.lookup spec.tag).getD .epoch := by
  unfold buildMod at h
  rcases hs : evalExpr env rm.startE with err | s <;> simp only [hs] at h
  · exact absurd h (by simp)
  · rcases he : evalStop env rm.stopE with err | e? <;> simp only [he] at h
    · exact absurd h (by simp)
    · rcases hp : evalParams env rm.params with err | ps <;> simp only [hp] at h
      · exact absurd h (by simp)
      · rcases hv : validBounds s e? with _ | _
        · simp [hv] at h
        · simp only [hv, if_true, Except.ok.injEq] at h
          subst h
          exact ⟨rfl, hv, rfl⟩

theorem buildStageMods_mem_back {reg : Registry} {env : List (String × ℚ)}
    {sname : String} :
    ∀ {l : List RawModifier} {ms : List ModifierSpec},
      buildStageMods reg env sname l = .ok ms →
      ∀ spec ∈ ms, ∃ rm ∈ l, buildMod reg env sname rm = .ok spec := by
  intro l
  induction l with
  | nil =>
    intro ms h spec hs
    simp [buildStageMods] at h
    subst h
    exact absurd hs (by simp)
  | cons m rest ih =>
    intro ms h spec hs
    unfold buildStageMods at h
    rcases hb : buildMod reg env sname m with err | spec' <;> simp only [hb] at h
    · exact absurd h (by simp)
    · rcases ht : buildStageMods reg env sname rest with err | tail <;>
        simp only [ht] at h
      · exact absurd h (by simp)
      · simp only [Except.ok.injEq] at h
        subst h
        rcases List.mem_cons.mp hs with rfl | hs'
        · exact ⟨m, List.mem_cons_self _ _, hb⟩
        · obtain ⟨rm, hrm, hbm⟩ := ih ht spec hs'
          exact ⟨rm, List.mem_cons_of_mem _ hrm, hbm⟩

theorem buildStages_mem_back {reg : Registry} {env : List (String × ℚ)} :
    ∀ {stages : List RecStage} {mods : List ModifierSpec},
      buildStages reg env stages = .ok mods →
      ∀ spec ∈ mods, ∃ st ∈ stages, ∃ rm ∈ st.mods,
        buildMod reg env st.sname rm = .ok spec := by
  intro stages
  induction stages with
  | nil =>
    intro mods h spec hs
    simp [buildStages] at h
    subst h
    exact absurd hs (by simp)
  | cons st' rest ih =>
    intro mods h spec hs
    unfold buildStages at h
    rcases hb : buildStageMods reg env st'.sname st'.mods with err | ms <;>
      simp only [hb] at h
    · exact absurd h (by simp)
    · rcases ht : buildStages reg env rest with err | tail <;> simp only [ht] at h
      · exact absurd h (by simp)
      · simp only [Except.ok.injEq] at h
        subst h
        rcases List.mem_append.mp hs with hs' | hs'
        · obtain ⟨rm, hrm, hbm⟩ := buildStageMods_mem_back hb spec hs'
          exact ⟨st', List.mem_cons_self _ _, rm, hrm, hbm⟩
        · obtain ⟨st, hst, rm, hrm, hbm⟩ := ih ht spec hs'
          exact ⟨st, List.mem_cons_of_mem _ hst, rm, hrm, hbm⟩

/-- C5: re-parsing the serializer's output of a loaded recipe reproduces, for
every modifier, the same resolved spec (name, tag, stage, interval bounds and
literal parameter values) as the original parse — the re-parsed modifier list
is a permutation (the scheduler's resolved execution order) of the originally
parsed one, with no formula strings left. -/
theorem C5_round_trip (reg : Registry) (ov : List (String × ℚ)) (rt : RecipeText)
    (p : ℚ) (mods0 : List ModifierSpec) (env0 : List (String × ℚ))
    (w warns : List String) (s : SchedState)
    (hp : parseRecipe reg ov rt = .ok (mods0, env0, w))
    (hl : loadText reg ov rt p = .ok (s, warns)) :
    ∃ env1, parseRecipe reg [] (serialize s) = .ok (s.insts.map Inst.spec, env1, [])
      ∧ (s.insts.map Inst.spec).Perm mods0 := by
  have hinv := parseRecipe_ok_inv hp
  obtain ⟨hct, hra, hbs, hw⟩ := hinv
  unfold loadText at hl
  rw [hp] at hl
  rcases hlm : loadMods env0 mods0 p with err | s' <;> simp only [hlm] at hl
  · exact absurd hl (by simp)
  · simp only [Except.ok.injEq, Prod.mk.injEq] at hl
    obtain ⟨hs', _⟩ := hl
    subst hs'
    obtain ⟨_, hsdef⟩ := loadMods_ok_insts hlm
    have hspecs : s'.insts.map Inst.spec = topo mods0.length mods0 := by
      rw [hsdef]
      simp only [List.map_map]
      exact (List.map_congr_left (fun a _ => rfl)).trans (List.map_id _)
    have hmem0 : ∀ spec ∈ s'.insts.map Inst.spec, spec ∈ mods0 := by
      intro spec hspec
      rw [hspecs] at hspec
      exact (topo_perm mods0.length mods0).mem_iff.mp hspec
    have hpost : ∀ spec ∈ mods0,
        (reg.lookup spec.tag).isSome = true ∧
        validBounds spec.start spec.stop = true ∧
        spec.granularity = (reg.lookup spec.tag).getD .epoch := by
      intro spec hspec
      obtain ⟨st, hst, rm, hrm, hbm⟩ := buildStages_mem_back hbs spec hspec
      obtain ⟨htag, hv, hg⟩ := buildMod_ok_post hbm
      refine ⟨?_, hv, hg⟩
      rw [htag]
      exact checkTags_none_forall hct st hst rm hrm
    have hpostI : ∀ i ∈ s'.insts,
        (reg.lookup i.spec.tag).isSome = true ∧
        validBounds i.spec.start i.spec.stop = true ∧
        i.spec.granularity = (reg.lookup i.spec.tag).getD .epoch := by
      intro i hi
      exact hpost i.spec (hmem0 i.spec (List.mem_map_of_mem Inst.spec hi))
    obtain ⟨env1, hres⟩ := resolveAll_lits s'.vars
    have hct' : checkTags reg (serialize s').stages = none :=
      checkTags_serialized reg s'.insts (fun i hi => (hpostI i hi).1)
    have hbs' : buildStages reg env1 (serialize s').stages
        = .ok (s'.insts.map Inst.spec) :=
      buildStages_serialized reg env1 s'.insts
        (fun i hi => ⟨(hpostI i hi).2.1, (hpostI i hi).2.2⟩)
    refine ⟨env1, ?_, ?_⟩
    · simp only [serialize] at hct' hres hbs'
      unfold parseRecipe
      rw [applyOverrides_nil]
      simp only [serialize]
      simp only [hct', hres, hbs']
    · rw [hspecs]
      exact topo_perm mods0.length mods0

/-- C5 witness: the round trip at the concrete transfer recipe. -/
theorem C5_witness :
    ∃ env1,
      parseRecipe notebookRegistry [] (serialize c6state)
        = .ok (c6state.insts.map Inst.spec, env1, []) ∧
      (c6state.insts.map Inst.spec).Perm
        [{ name := "epoch_range", tag := "EpochRangeModifier"
           stage := "training_modifiers", start := 0, stop := some 13
           targets := [], params := [], granularity := Gran.epoch },
         { name := "lr_func", tag := "LearningRateFunctionModifier"
           stage := "training_modifiers", start := 0, stop := some 13
           targets := ["lr"]
           params := [("init_lr", mkRat 3 20000), ("final_lr", 0)]
           granularity := Gran.step }] :=
  C5_round_trip notebookRegistry [] transferRecipe 0 _
    [("final_lr", 0), ("init_lr", mkRat 3 20000), ("num_epochs", 13)] [] [] c6state
    rfl rfl


/-! ## C9: the two sparsezoo-removal awk scripts -/

/-- Lines a `go000` mode can emit besides input lines and fixed replacement
lines: the carried record of the `wrap` and `r9` modes (it was an input line
of the enclosing call, but not of the remaining-input argument). -/
def modeCarrier000 : M000 → List Line
  | .wrap cur => [cur]
  | .r9 cur => [cur]
  | _ => []

/-- A line emitted by the wrapper docstring loop for record `x` is `x`
itself or one of the fixed replacement lines. -/
theorem docEmit000_mem {l x : Line} (h : l ∈ docEmit000 x) :
    l = x ∨ l ∈ fixed000 := by
  unfold docEmit000 at h
  split_ifs at h
  · exact Or.inr (List.mem_append_left _ h)
  · simp at h
  · simp at h
  · exact Or.inr (List.mem_append_right _ h)
  · simp at h; exact Or.inl h

/-- Everything `go000` emits is a remaining input line, the carried record,
or a fixed replacement line. -/
theorem go000_subset :
    ∀ (m : M000) (input : List Line), ∀ l ∈ go000 m input,
      l ∈ modeCarrier000 m ++ input ++ fixed000 := by
  intro m input
  induction m, input using go000.induct <;> intro l hl
  case case1 => simp [go000] at hl
  case case2 a as h1 ih =>
    simp only [go000] at hl
    rw [if_pos h1] at hl
    exact List.mem_cons_of_mem a (ih l hl)
  case case3 a as h1 h2 ih =>
    simp only [go000] at hl
    rw [if_neg h1, if_pos h2] at hl
    rcases List.mem_cons.mp hl with rfl | hm
    · exact List.mem_cons_self _ _
    · exact List.mem_cons_of_mem a (ih l hm)
  case case4 a as h1 h2 h3 ih =>
    simp only [go000] at hl
    rw [if_neg h1, if_neg h2, if_pos h3] at hl
    exact List.mem_cons_of_mem a (ih l hl)
  case case5 a as h1 h2 h3 h4 ih =>
    simp only [go000] at hl
    rw [if_neg h1, if_neg h2, if_neg h3, if_pos h4] at hl
    rcases List.mem_cons.mp hl with rfl | hm
    · exact List.mem_cons_self _ _
    · exact ih l hm
  case case6 a as h1 h2 h3 h4 ih =>
    simp only [go000] at hl
    rw [if_neg h1, if_neg h2, if_neg h3, if_neg h4] at hl
    rcases List.mem_cons.mp hl with rfl | hm
    · exact List.mem_cons_self _ _
    · exact List.mem_cons_of_mem a (ih l hm)
  case case7 cur ih =>
    simp only [go000] at hl
    simp only [go000] at ih
    exact ih l hl
  case case8 cur x xs h1 ih =>
    simp only [go000] at hl
    rw [if_pos h1] at hl
    rcases List.mem_append.mp hl with hd | hm
    · rcases docEmit000_mem hd with rfl | hf
      · exact List.mem_cons_of_mem cur (List.mem_append_left _ (List.mem_cons_self _ _))
      · exact List.mem_cons_of_mem cur (List.mem_append_right _ hf)
    · exact List.mem_cons_of_mem cur (ih l hm)
  case case9 cur x xs h1 ih =>
    simp only [go000] at hl
    rw [if_neg h1] at hl
    simp only [go000] at ih
    exact List.mem_cons_of_mem cur (ih l hl)
  case case10 cur rest h1 ih =>
    simp only [go000] at hl
    rw [if_pos h1] at hl
    rcases List.mem_cons.mp hl with rfl | hm
    · exact List.mem_cons_self _ _
    · exact List.mem_cons_of_mem cur (ih l hm)
  case case11 cur rest h1 h2 ih =>
    simp only [go000] at hl
    rw [if_neg h1, if_pos h2] at hl
    exact List.mem_cons_of_mem cur (ih l hl)
  case case12 cur rest h1 h2 h3 ih =>
    simp only [go000] at hl
    rw [if_neg h1, if_neg h2, if_pos h3] at hl
    exact List.mem_cons_of_mem cur (ih l hl)
  case case13 cur rest h1 h2 h3 ih =>
    simp only [go000] at hl
    rw [if_neg h1, if_neg h2, if_neg h3] at hl
    rcases List.mem_cons.mp hl with rfl | hm
    · exact List.mem_cons_self _ _
    · exact List.mem_cons_of_mem cur (ih l hm)
  case case14 => simp [go000] at hl
  case case15 x xs h1 ih =>
    simp only [go000] at hl
    rw [if_pos h1] at hl
    rcases List.mem_append.mp (ih l hl) with hd | hf
    · exact List.mem_cons_of_mem x
        (List.mem_append_left _ (List.mem_of_mem_drop hd))
    · exact List.mem_cons_of_mem x (List.mem_append_right _ hf)
  case case16 x xs h1 h2 ih =>
    simp only [go000] at hl
    rw [if_neg h1, if_pos h2] at hl
    rcases List.mem_cons.mp hl with rfl | hm
    · exact List.mem_cons_self _ _
    · exact List.mem_cons_of_mem x (ih l hm)
  case case17 x xs h1 h2 ih =>
    simp only [go000] at hl
    rw [if_neg h1, if_neg h2] at hl
    exact List.mem_cons_of_mem x (ih l hl)

/-- Bounded-length form of the part_001 output-subset property. -/
theorem go001_subset_aux :
    ∀ (n : Nat) (m : M001) (input : List Line), input.length ≤ n →
      ∀ l ∈ go001 m input, l ∈ input := by
  intro n
  induction n with
  | zero =>
    intro m input hlen l hl
    have hnil : input = [] := List.eq_nil_of_length_eq_zero (Nat.le_zero.mp hlen)
    subst hnil
    cases m <;> simp [go001] at hl
  | succ n ih =>
    intro m input hlen l hl
    rcases input with _ | ⟨a, as⟩
    · cases m <;> simp [go001] at hl
    have has : as.length ≤ n := by
      simpa [List.length_cons, Nat.succ_le_succ_iff] using hlen
    rcases m with b | _ | _
    · rcases as with _ | ⟨x, xs⟩
      · simp only [go001] at hl
        split_ifs at hl <;> simp_all
      · have hxxs : (x :: xs).length ≤ n := has
        have hxs : xs.length ≤ n := by
          simp only [List.length_cons] at has
          omega
        rw [go001.eq_3] at hl
        split_ifs at hl with h1 h2 h3 h4 h5 h6
        · exact List.mem_cons_of_mem a (ih (.top b) (x :: xs) hxxs l hl)
        · rcases List.mem_cons.mp hl with rfl | hm
          · exact List.mem_cons_self _ _
          rcases List.mem_cons.mp hm with rfl | hm2
          · exact List.mem_cons_of_mem a (List.mem_cons_self _ _)
          · exact List.mem_cons_of_mem a
              (List.mem_cons_of_mem x (ih (.top true) xs hxs l hm2))
        · exact List.mem_cons_of_mem a (ih .cz (x :: xs) hxxs l hl)
        · exact List.mem_cons_of_mem a (ih .z (x :: xs) hxxs l hl)
        · rcases List.mem_cons.mp hl with rfl | hm
          · exact List.mem_cons_self _ _
          · exact List.mem_cons_of_mem a (ih (.top false) (x :: xs) hxxs l hm)
        · rcases List.mem_cons.mp hl with rfl | hm
          · exact List.mem_cons_self _ _
          · exact List.mem_cons_of_mem a (ih (.top true) (x :: xs) hxxs l hm)
        · rcases List.mem_cons.mp hl with rfl | hm
          · exact List.mem_cons_self _ _
          · exact List.mem_cons_of_mem a (ih (.top false) (x :: xs) hxxs l hm)
    · simp only [go001] at hl
      split_ifs at hl with h1
      · rcases List.mem_cons.mp hl with rfl | hm
        · exact List.mem_cons_self _ _
        · exact List.mem_cons_of_mem a
            (ih (.top (!(patSub elseAssumePat001 a))) as has l hm)
      · exact List.mem_cons_of_mem a (ih .cz as has l hl)
    · simp only [go001] at hl
      split_ifs at hl with h1
      · rcases List.mem_cons.mp hl with rfl | hm
        · exact List.mem_cons_self _ _
        · exact List.mem_cons_of_mem a (ih (.top false) as has l hm)
      · exact List.mem_cons_of_mem a (ih .z as has l hl)

/-- Every line `go001` emits is an input line. -/
theorem go001_subset (m : M001) (input : List Line) :
    ∀ l ∈ go001 m input, l ∈ input :=
  go001_subset_aux input.length m input le_rfl

/-- If no input line matches the `def wrapper(` trigger, part_000 never
enters a getline loop, so every sparsezoo-import line is filtered out. -/
theorem run000_no_import :
    ∀ (input : List Line),
      (∀ l ∈ input, patSub wrapperPat000 l = false) →
      ∀ l ∈ run000 input, patSub import000 l = false := by
  intro input
  unfold run000
  induction input with
  | nil => intro _ l hl; simp [go000] at hl
  | cons a as ih =>
    intro H l hl
    have Has : ∀ x ∈ as, patSub wrapperPat000 x = false :=
      fun x hx => H x (List.mem_cons_of_mem a hx)
    simp only [go000] at hl
    split_ifs at hl with h1 h2 h3 h4
    · exact ih Has l hl
    · rcases List.mem_cons.mp hl with rfl | hm
      · exact Bool.eq_false_iff.mpr h1
      · exact ih Has l hm
    · exact ih Has l hl
    · rw [H a (List.mem_cons_self a as)] at h4
      exact absurd h4 (by simp)
    · rcases List.mem_cons.mp hl with rfl | hm
      · exact Bool.eq_false_iff.mpr h1
      · exact ih Has l hm

/-- If no input line matches the isfile trigger, part_001 never enters the
conditional block or a getline loop, so every sparsezoo-import line is
filtered out. -/
theorem run001_no_import :
    ∀ (input : List Line),
      (∀ l ∈ input, patSub isfilePat001 l = false) →
      ∀ l ∈ run001 input, patSub import001 l = false := by
  intro input
  unfold run001
  induction input with
  | nil => intro _ l hl; simp [go001] at hl
  | cons a as ih =>
    intro H l hl
    have Has : ∀ x ∈ as, patSub isfilePat001 x = false :=
      fun x hx => H x (List.mem_cons_of_mem a hx)
    rcases as with _ | ⟨x, xs⟩
    · rw [go001.eq_2] at hl
      split_ifs at hl with h1 h2 h3 h4 h5 h6
      · rw [go001.eq_1] at hl
        exact absurd hl (List.not_mem_nil l)
      · rw [H a (List.mem_cons_self a [])] at h2
        exact absurd h2 (by simp)
      · exact absurd h3 (by simp)
      · exact absurd h3 (by simp)
      · exact absurd h3 (by simp)
      · exact absurd h3 (by simp)
      · rcases List.mem_cons.mp hl with rfl | hm
        · exact Bool.eq_false_iff.mpr h1
        · rw [go001.eq_1] at hm
          exact absurd hm (List.not_mem_nil l)
    · rw [go001.eq_3] at hl
      split_ifs at hl with h1 h2 h3 h4 h5 h6
      · exact ih Has l hl
      · rw [H a (List.mem_cons_self a (x :: xs))] at h2
        exact absurd h2 (by simp)
      · exact absurd h3 (by simp)
      · exact absurd h3 (by simp)
      · exact absurd h3 (by simp)
      · exact absurd h3 (by simp)
      · rcases List.mem_cons.mp hl with rfl | hm
        · exact Bool.eq_false_iff.mpr h1
        · exact ih Has l hm

/-- C9: Amended.  (i) Every line either script emits is an input line (plus,
for part_000, possibly a fixed replacement line), and (ii) when no input
line matches the getline trigger of the respective script (`def wrapper(`
for part_000, the isfile line for part_001), the output contains no line
matching the script's sparsezoo import pattern.  The original unconditional
no-import claim is refuted by `C9_counterexample`: a line consumed by a
getline look-ahead loop bypasses the top-level import filter. -/
theorem C9_awk_rewrite (input : List Line) :
    (∀ l ∈ run000 input, l ∈ input ++ fixed000) ∧
    (∀ l ∈ run001 input, l ∈ input) ∧
    ((∀ l ∈ input, patSub wrapperPat000 l = false) →
      ∀ l ∈ run000 input, patSub import000 l = false) ∧
    ((∀ l ∈ input, patSub isfilePat001 l = false) →
      ∀ l ∈ run001 input, patSub import001 l = false) :=
  ⟨fun l hl => go000_subset .top input l hl,
   fun l hl => go001_subset (.top false) input l hl,
   run000_no_import input,
   run001_no_import input⟩

/-- C9 counterexample to the original claim: for each script there is an
input whose output still contains the sparsezoo import line, because that
line is consumed by a getline look-ahead (part_001 isfile rule,
part_000 wrapper docstring loop) and bypasses the top-level filter. -/
theorem C9_counterexample :
    patSub import001 import001 = true ∧
    run001 [isfilePat001, import001] = [isfilePat001, import001] ∧
    patSub import000 import000 = true ∧
    run000 [wrapperPat000, import000] = [wrapperPat000, import000] := by
  have h1 : patSub import001 isfilePat001 = false := by decide
  have h2 : patSub isfilePat001 isfilePat001 = true := by decide
  have a1 : patSub import000 wrapperPat000 = false := by decide
  have a2 : patSub createPat000 wrapperPat000 = false := by decide
  have a3 : patSub createZooPat000 wrapperPat000 = false := by decide
  have a4 : patSub wrapperPat000 wrapperPat000 = true := by decide
  have a5 : docShaped000 import000 = false := by decide
  have a6 : isReturnWrapper000 import000 = false := by decide
  have a7 : patSub zooModelPat000 import000 = false := by decide
  have a8 : patSub downloadPat000 import000 = false := by decide
  refine ⟨by decide, ?_, by decide, ?_⟩
  · simp [run001, go001, h1, h2]
  · simp [run000, go000, a1, a2, a3, a4, a5, a6, a7, a8]

/-- Concrete input for the C9 witness: the two import lines themselves
(neither matches a getline trigger). -/
def c9input : List Line := [import000, import001]

/-- C9 witness: on the concrete two-line input, both scripts emit only
input (or fixed) lines and filter out every sparsezoo import line. -/
theorem C9_witness :
    (∀ l ∈ run000 c9input, l ∈ c9input ++ fixed000) ∧
    (∀ l ∈ run001 c9input, l ∈ c9input) ∧
    (∀ l ∈ run000 c9input, patSub import000 l = false) ∧
    (∀ l ∈ run001 c9input, patSub import001 l = false) := by
  obtain ⟨h1, h2, h3, h4⟩ := C9_awk_rewrite c9input
  exact ⟨h1, h2, h3 (by decide), h4 (by decide)⟩

end SparseMLVerify
